import Mathlib

/- Verification development for the RoadArg command-line argument parsing
library (`src/roadarg/arg.py`). The Python source is shallowly embedded:
Python values that flow through the parser are modelled by `PyVal`, the
`ArgParser` class and its methods by plain functions, the `while` scan loop
of `ArgParser.parse` by a fuel-based recursion (the fuel `args.length + 1`
always suffices because the scan index grows by at least one per iteration),
and every raised exception by an `Except` error value. -/

set_option autoImplicit false

/-- Model of a Python float value as produced by `float(...)`: a finite
value (represented exactly as a rational; IEEE rounding and signed zero are
abstracted away), a signed infinity, or a NaN. -/
inductive PyFloat where
  | finite (q : ℚ)
  | inf (neg : Bool)
  | nan
  deriving DecidableEq

/-- Model of the Python values the parser stores and moves around:
`None`, booleans, integers, floats, strings, and lists of values. -/
inductive PyVal where
  | none
  | bool (b : Bool)
  | int (n : ℤ)
  | float (f : PyFloat)
  | str (s : String)
  | list (xs : List PyVal)

/-- The four declared-type tags the spec's data model closes `type` over
(`str`, `int`, `float`, `bool`); the Python field holds the class itself. -/
inductive PyType where
  | str
  | int
  | float
  | bool
  deriving DecidableEq

/-- The common whitespace characters stripped by Python's `str.strip()`
(the rarer control and unicode whitespace characters `str.strip()` also
removes are out of scope for command-line tokens). -/
def isPySpace (c : Char) : Bool :=
  c = ' ' || c = '\t' || c = '\n' || c = '\r' || c = '\x0b' || c = '\x0c'

/-- Strip leading and trailing whitespace, as `str.strip()` does before
`int(...)` / `float(...)` parse a string. -/
def stripWs (cs : List Char) : List Char :=
  ((cs.dropWhile isPySpace).reverse.dropWhile isPySpace).reverse

/-- Numeric value of a decimal digit character. -/
def digitVal (c : Char) : ℕ :=
  c.toNat - 48

/-- Continue consuming a decimal digit run after at least one digit has been
read: further digits extend the run, and a single underscore is allowed
between two digits (CPython's `_` grouping rule).  Returns the accumulated
value, the number of digits consumed, and the unconsumed rest. -/
def moreDigits : ℕ → ℕ → List Char → ℕ × ℕ × List Char
  | acc, k, [] => (acc, k, [])
  | acc, k, c :: cs =>
    if c.isDigit then moreDigits (acc * 10 + digitVal c) (k + 1) cs
    else if c = '_' then
      match cs with
      | c2 :: cs2 =>
        if c2.isDigit then moreDigits (acc * 10 + digitVal c2) (k + 1) cs2
        else (acc, k, c :: cs)
      | [] => (acc, k, c :: cs)
    else (acc, k, c :: cs)

/-- Consume a maximal nonempty digit run (with CPython underscore grouping)
from the front of the list; `none` when the list does not start with a
digit. -/
def takeDigits : List Char → Option (ℕ × ℕ × List Char)
  | c :: cs => if c.isDigit then some (moreDigits (digitVal c) 1 cs) else Option.none
  | [] => Option.none

/-- A whole character list as one digit run, as required after the optional
sign by `int(...)`: the run must consume everything. -/
def intDigits (cs : List Char) : Option ℕ :=
  match takeDigits cs with
  | some (n, _, []) => some n
  | _ => Option.none

/-- Model of Python's `int(string)` (base 10): strip whitespace, optional
sign, then one underscore-grouped digit run filling the rest. -/
def pyInt (s : String) : Option ℤ :=
  match stripWs s.toList with
    | '+' :: rest => (intDigits rest).map (fun (n : ℕ) => (n : ℤ))
    | '-' :: rest => (intDigits rest).map (fun (n : ℕ) => -(n : ℤ))
    | rest => (intDigits rest).map (fun (n : ℕ) => (n : ℤ))

/-- The signed exponent after `e`/`E` in a float literal: optional sign and
a digit run filling the rest. -/
def expVal : List Char → Option ℤ
  | '+' :: r => (intDigits r).map (fun (n : ℕ) => (n : ℤ))
  | '-' :: r => (intDigits r).map (fun (n : ℕ) => -(n : ℤ))
  | r => (intDigits r).map (fun (n : ℕ) => (n : ℤ))

/-- Assemble the exact value of a finite float literal from its parts:
integer part, fraction digits (value and count) and exponent. -/
def mkFiniteF (neg : Bool) (ip fp fd : ℕ) (ex : ℤ) : PyFloat :=
  let mag : ℚ := ((ip : ℚ) + (fp : ℚ) / (10 : ℚ) ^ fd) * (10 : ℚ) ^ ex
  .finite (if neg then -mag else mag)

/-- After the mantissa of a float literal: either the end of the token or an
`e`/`E` exponent part filling the rest. -/
def afterMant (neg : Bool) (ip fp fd : ℕ) : List Char → Option PyFloat
  | [] => some (mkFiniteF neg ip fp fd 0)
  | c :: r =>
    if c = 'e' ∨ c = 'E' then (expVal r).map (mkFiniteF neg ip fp fd)
    else Option.none

/-- The numeric body of a float literal after the optional sign:
`digits [. [digits]] [exp]` or `. digits [exp]`. -/
def mantissa (neg : Bool) (cs : List Char) : Option PyFloat :=
  match takeDigits cs with
  | some (ip, _, rest) =>
    match rest with
    | '.' :: r2 =>
      match takeDigits r2 with
      | some (fp, fd, r3) => afterMant neg ip fp fd r3
      | Option.none => afterMant neg ip 0 0 r2
    | _ => afterMant neg ip 0 0 rest
  | Option.none =>
    match cs with
    | '.' :: r2 =>
      match takeDigits r2 with
      | some (fp, fd, r3) => afterMant neg 0 fp fd r3
      | Option.none => Option.none
    | _ => Option.none

/-- The body of a float literal after the optional sign: the case-insensitive
specials `inf`, `infinity`, `nan`, or a numeric mantissa. -/
def pyFloatBody (neg : Bool) (cs : List Char) : Option PyFloat :=
  if cs.map Char.toLower = ['i', 'n', 'f']
      ∨ cs.map Char.toLower = ['i', 'n', 'f', 'i', 'n', 'i', 't', 'y'] then some (.inf neg)
  else if cs.map Char.toLower = ['n', 'a', 'n'] then some .nan
  else mantissa neg cs

/-- Model of Python's `float(string)`: strip whitespace, optional sign, then
a special word or a numeric mantissa with optional exponent. -/
def pyFloat (s : String) : Option PyFloat :=
  match stripWs s.toList with
    | '+' :: rest => pyFloatBody false rest
    | '-' :: rest => pyFloatBody true rest
    | rest => pyFloatBody false rest

/-- Python's `str.lower()` restricted to its ASCII action. -/
def pyLower (s : String) : String :=
  String.mk (s.toList.map Char.toLower)

/-- Numeric view of a Python value: booleans and integers promote to the
same numeric line as floats (Python's `bool` is a subclass of `int`, and
`==` compares across the numeric tower). -/
def PyVal.toNum : PyVal → Option PyFloat
  | .bool b => some (.finite (if b then 1 else 0))
  | .int n => some (.finite (n : ℚ))
  | .float f => some f
  | _ => Option.none

/-- Equality on the numeric line: finite values compare exactly, infinities
by sign, and NaN is equal to nothing (including itself). -/
def numEq : PyFloat → PyFloat → Bool
  | .finite a, .finite b => a = b
  | .inf a, .inf b => a = b
  | _, _ => false

mutual

/-- Model of Python `==` on the values the parser handles: cross-type
numeric equality, structural equality on `None`/strings/lists, `False`
across kinds. -/
def pyEq : PyVal → PyVal → Bool
  | a, b =>
    match a.toNum, b.toNum with
    | some x, some y => numEq x y
    | _, _ =>
      match a, b with
      | .none, .none => true
      | .str s, .str t => s = t
      | .list xs, .list ys => pyEqList xs ys
      | _, _ => false

/-- Pointwise Python `==` on lists. -/
def pyEqList : List PyVal → List PyVal → Bool
  | [], [] => true
  | x :: xs, y :: ys => pyEq x y && pyEqList xs ys
  | _, _ => false

end

/-- Python's `in` membership test against a list, as used for `choices`. -/
def pyIn (v : PyVal) (xs : List PyVal) : Bool :=
  xs.any (fun x => pyEq v x)

/-- Python truthiness of the values the parser can store. -/
def pyTruthy : PyVal → Bool
  | .none => false
  | .bool b => b
  | .int n => n ≠ 0
  | .float (.finite q) => q ≠ 0
  | .float (.inf _) => true
  | .float .nan => true
  | .str s => s ≠ ""
  | .list xs => !xs.isEmpty

/-- Python `value + 1` as used by the `count` action; `none` models the
`TypeError` raised when the stored value does not support `+ 1`. -/
def pyAdd1 : PyVal → Option PyVal
  | .int n => some (.int (n + 1))
  | .bool b => some (.int (if b then 2 else 1))
  | .float (.finite q) => some (.float (.finite (q + 1)))
  | .float (.inf s) => some (.float (.inf s))
  | .float .nan => some (.float .nan)
  | _ => Option.none

/-- Whether a `dict.get` result `is None` in Python: the key is absent or
it is bound to `None`. -/
def pyIsNoneOpt : Option PyVal → Bool
  | Option.none => true
  | some .none => true
  | some _ => false

/-- The failure kinds a `parse` call can raise, mirroring the messages of
`ArgError` in the source plus the two Python builtin failures that also
escape `parse`: `conversionError` models the `ValueError` raised by
`int(...)`/`float(...)` on a malformed token, and `typeError` the
`TypeError` of `value + 1` on a non-numeric count destination. -/
inductive ArgErr where
  | unknownArgument (which : String)
  | missingValue (which : String)
  | conversionError (token : String)
  | invalidChoice (which : String)
  | requiredArgument (name : String)
  | typeError

/-- `ArgParser._convert`: booleans by truthy-string matching, the other
types by calling the type on the raw string token. -/
def pyConvert (s : String) (t : PyType) : Except ArgErr PyVal :=
  match t with
  | .bool => .ok (.bool (["true", "1", "yes", "on"].contains (pyLower s)))
  | .str => .ok (.str s)
  | .int =>
    match pyInt s with
    | some n => .ok (.int n)
    | Option.none => .error (.conversionError s)
  | .float =>
    match pyFloat s with
    | some f => .ok (.float f)
    | Option.none => .error (.conversionError s)

/-- The `Arg` dataclass (a declared Flag), with the source's field defaults. -/
structure Arg where
  name : String
  short : String := ""
  type : PyType := .str
  default : PyVal := .none
  required : Bool := false
  help : String := ""
  choices : List PyVal := []
  nargs : String := ""
  action : String := "store"
  dest : String := ""
  metavar : String := ""

/-- The `Positional` dataclass, with the source's field defaults. -/
structure Positional where
  name : String
  type : PyType := .str
  help : String := ""
  nargs : String := ""
  default : PyVal := .none
  choices : List PyVal := []

/-- The `ParsedArgs` dataclass: the destination map (an insertion-ordered
Python dict, modelled as an association list), the `positionals` list, and
the `remaining` tokens. -/
structure ParsedArgs where
  args : List (String × PyVal) := []
  positionals : List PyVal := []
  remaining : List String := []

/-- `dict.get`-style lookup in the ordered-dict model. -/
def dictGet : List (String × PyVal) → String → Option PyVal
  | [], _ => Option.none
  | (k0, v0) :: rest, k => if k0 = k then some v0 else dictGet rest k

/-- `dict[k] = v` in the ordered-dict model: update in place when the key
exists, append otherwise. -/
def dictSet : List (String × PyVal) → String → PyVal → List (String × PyVal)
  | [], k, v => [(k, v)]
  | (k0, v0) :: rest, k, v =>
    if k0 = k then (k0, v) :: rest else (k0, v0) :: dictSet rest k v

/-- The scratch accumulation store `collected`: create the key with `[]`
then append, keeping dict insertion order. -/
def colAppend : List (String × List PyVal) → String → PyVal → List (String × List PyVal)
  | [], k, v => [(k, [v])]
  | (k0, vs) :: rest, k, v =>
    if k0 = k then (k0, vs ++ [v]) :: rest else (k0, vs) :: colAppend rest k v

/-- `ParsedArgs.get`. -/
def ParsedArgs.get (r : ParsedArgs) (name : String) (dflt : PyVal := .none) : PyVal :=
  (dictGet r.args name).getD dflt

/-- The outcome of a `parse` call that does not raise: a `ParsedArgs`
result, or the help short-circuit (`print_help()` then `sys.exit(0)`). -/
inductive ParseOutcome where
  | result (r : ParsedArgs)
  | helpExit

/-- The `ArgParser` schema state: program metadata and the ordered Flag and
Positional declarations. -/
structure ArgParser where
  prog : String := ""
  description : String := ""
  epilog : String := ""
  arguments : List Arg := []
  positionals : List Positional := []

/-- The auto-registered help flag added by `ArgParser._add_help`. -/
def helpArg : Arg :=
  { name := "help", short := "h", action := "store_true", help := "Show this help message" }

/-- `ArgParser.__init__`: store the metadata (the `sys.argv[0]` fallback for
an empty `prog` is external input and is left to the caller) and register
the help flag. -/
def mkArgParser (prog description epilog : String) : ArgParser :=
  { prog := prog, description := description, epilog := epilog,
    arguments := [helpArg], positionals := [] }

/-- `ArgParser.add_argument(name, short, **kwargs)`: the Python method
builds `Arg(name=name, short=short, **kwargs)` and appends it; here the
caller passes the built record. -/
def add_argument (p : ArgParser) (a : Arg) : ArgParser :=
  { p with arguments := p.arguments ++ [a] }

/-- `ArgParser.add_positional(name, **kwargs)`, likewise. -/
def add_positional (p : ArgParser) (q : Positional) : ArgParser :=
  { p with positionals := p.positionals ++ [q] }

/-- `arg.dest or arg.name`: the destination key of a Flag (an empty `dest`
is falsy in Python). -/
def destOf (a : Arg) : String :=
  if a.dest = "" then a.name else a.dest

/-- The default written for a Flag by `ArgParser._apply_defaults`. -/
def defaultValue (a : Arg) : PyVal :=
  if a.action = "store_true" then .bool false
  else if a.action = "store_false" then .bool true
  else if a.action = "count" then .int 0
  else a.default

/-- `ArgParser._apply_defaults` on a fresh result dict. -/
def applyDefaults (p : ArgParser) : List (String × PyVal) :=
  p.arguments.foldl (fun d a => dictSet d (destOf a) (defaultValue a)) []

/-- `ArgParser._find_arg`: first declared Flag whose `name` or `dest`
matches the long key. -/
def findArg (p : ArgParser) (key : String) : Option Arg :=
  p.arguments.find? (fun a => a.name = key || a.dest = key)

/-- `ArgParser._find_arg_short`: first declared Flag whose `short` matches
the one-character token. -/
def findArgShort (p : ArgParser) (c : Char) : Option Arg :=
  p.arguments.find? (fun a => a.short = c.toString)

/-- `str.startswith`, by character lists. -/
def strStartsWith (s pre : String) : Bool :=
  pre.toList.isPrefixOf s.toList

/-- The `key.split("=", 1)` step on a long token's key part: split at the
first `=` when one is present. -/
def splitEq (s : String) : String × Option String :=
  match s.toList.span (fun c => c ≠ '=') with
  | (pre, '=' :: post) => (String.mk pre, some (String.mk post))
  | (_, _) => (s, Option.none)

/-- `ArgParser._process_arg`: resolve the value for a matched Flag given the
scan index `i` and an optional inline `=value`; returns the updated index
and the (converted) value.  No-value actions consume nothing; `nargs == "?"`
falls back to the Flag's default when no usable next token exists; otherwise
the next token is consumed and converted. -/
def processArg (a : Arg) (args : List String) (i : ℕ) (v : Option String) :
    Except ArgErr (ℕ × PyVal) :=
  if a.action ∈ ["store_true", "store_false", "count"] then .ok (i, .none)
  else
    match v with
    | some s =>
      match pyConvert s a.type with
      | .ok w => .ok (i, w)
      | .error e => .error e
    | Option.none =>
      if a.nargs = "?" ∧ (args.length ≤ i + 1 ∨ strStartsWith (args[i+1]?.getD "") "-" = true) then
        .ok (i, a.default)
      else
        match args[i+1]? with
        | some s =>
          match pyConvert s a.type with
          | .ok w => .ok (i + 1, w)
          | .error e => .error e
        | Option.none => .error (.missingValue a.name)

/-- `ArgParser._store_value`: apply the Flag's action to the result dict or
the scratch accumulation store. -/
def storeValue (r : ParsedArgs) (a : Arg) (v : PyVal)
    (col : List (String × List PyVal)) :
    Except ArgErr (ParsedArgs × List (String × List PyVal)) :=
  if a.action = "store_true" then
    .ok ({ r with args := dictSet r.args (destOf a) (.bool true) }, col)
  else if a.action = "store_false" then
    .ok ({ r with args := dictSet r.args (destOf a) (.bool false) }, col)
  else if a.action = "count" then
    match pyAdd1 ((dictGet r.args (destOf a)).getD (.int 0)) with
    | some w => .ok ({ r with args := dictSet r.args (destOf a) w }, col)
    | Option.none => .error .typeError
  else if a.action = "append" ∨ a.nargs = "*" ∨ a.nargs = "+" then
    .ok (r, colAppend col (destOf a) v)
  else
    if a.choices.isEmpty = false ∧ pyIn v a.choices = false then
      .error (.invalidChoice a.name)
    else
      .ok ({ r with args := dictSet r.args (destOf a) v }, col)

/-- The `for j, short in enumerate(arg[1:])` loop over a short cluster:
no-value actions store immediately; a value-taking Flag is resolved via
`processArg` only at the last character, and raises at any earlier
position. -/
def processCluster (p : ArgParser) (args : List String) :
    List Char → ℕ → ParsedArgs → List (String × List PyVal) →
    Except ArgErr (ℕ × ParsedArgs × List (String × List PyVal))
  | [], i, r, col => .ok (i, r, col)
  | c :: cs, i, r, col =>
    match findArgShort p c with
    | Option.none => .error (.unknownArgument c.toString)
    | some a =>
      if a.action ∈ ["store_true", "store_false", "count"] then
        match storeValue r a .none col with
        | .error e => .error e
        | .ok (r2, col2) => processCluster p args cs i r2 col2
      else if cs.isEmpty then
        match processArg a args i Option.none with
        | .error e => .error e
        | .ok (i2, v) =>
          match storeValue r a v col with
          | .error e => .error e
          | .ok (r2, col2) => .ok (i2, r2, col2)
      else .error (.missingValue c.toString)

/-- The `while i < len(args)` scan of `ArgParser.parse`, as a fuel-indexed
recursion on the scan index `i`; `parse` runs it with fuel
`args.length + 1`, which never runs out because `i` grows by at least one
per iteration (`scanLoop_fuel`). -/
def scanLoop (p : ArgParser) (args : List String) :
    ℕ → ℕ → ℕ → ParsedArgs → List (String × List PyVal) →
    Except ArgErr (ParsedArgs × List (String × List PyVal))
  | 0, _, _, r, col => .ok (r, col)
  | fuel + 1, i, posIdx, r, col =>
    match args[i]? with
    | Option.none => .ok (r, col)
    | some t =>
      if t = "--" then
        .ok ({ r with remaining := args.drop (i + 1) }, col)
      else if strStartsWith t "--" = true then
        match splitEq (String.mk (t.toList.drop 2)) with
        | (key, mv) =>
        match findArg p key with
        | Option.none => .error (.unknownArgument key)
        | some a =>
          match processArg a args i mv with
          | .error e => .error e
          | .ok (i2, v) =>
            match storeValue r a v col with
            | .error e => .error e
            | .ok (r2, col2) => scanLoop p args fuel (i2 + 1) posIdx r2 col2
      else if strStartsWith t "-" = true ∧ 1 < t.length then
        match processCluster p args (t.toList.drop 1) i r col with
        | .error e => .error e
        | .ok (i2, r2, col2) => scanLoop p args fuel (i2 + 1) posIdx r2 col2
      else
        match p.positionals[posIdx]? with
        | some pos =>
          match pyConvert t pos.type with
          | .error e => .error e
          | .ok v =>
            if pos.choices.isEmpty = false ∧ pyIn v pos.choices = false then
              .error (.invalidChoice pos.name)
            else if pos.nargs = "*" ∨ pos.nargs = "+" then
              scanLoop p args fuel (i + 1) posIdx r (colAppend col pos.name v)
            else
              scanLoop p args fuel (i + 1) (posIdx + 1)
                { r with args := dictSet r.args pos.name v } col
        | Option.none =>
          scanLoop p args fuel (i + 1) posIdx
            { r with remaining := r.remaining ++ [t] } col

/-- The post-scan flush `for name, values in collected.items():
result.args[name] = values`. -/
def flushCollected (d : List (String × PyVal)) (col : List (String × List PyVal)) :
    List (String × PyVal) :=
  col.foldl (fun d kv => dictSet d kv.1 (.list kv.2)) d

/-- `ArgParser._validate`: raise on the first required Flag whose
destination value `is None`. -/
def validateArgs : List Arg → List (String × PyVal) → Except ArgErr Unit
  | [], _ => .ok ()
  | a :: rest, d =>
    if a.required = true ∧ pyIsNoneOpt (dictGet d (destOf a)) = true then
      .error (.requiredArgument a.name)
    else validateArgs rest d

/-- `ArgParser.parse(args)` on an explicit token list (the `sys.argv[1:]`
fallback is external input): defaults, scan, flush, help short-circuit,
validation. -/
def parse (p : ArgParser) (args : List String) : Except ArgErr ParseOutcome :=
  let r0 : ParsedArgs := { args := applyDefaults p, positionals := [], remaining := [] }
  match scanLoop p args (args.length + 1) 0 0 r0 [] with
  | .error e => .error e
  | .ok (r, col) =>
    let r2 := { r with args := flushCollected r.args col }
    if pyTruthy ((dictGet r2.args "help").getD .none) = true then .ok .helpExit
    else
      match validateArgs p.arguments r2.args with
      | .error e => .error e
      | .ok _ => .ok (.result r2)

theorem dictGet_dictSet (d : List (String × PyVal)) (k k' : String) (v : PyVal) :
    dictGet (dictSet d k v) k' = if k = k' then some v else dictGet d k' := by
  induction d with
  | nil => simp only [dictSet, dictGet]
  | cons hd tl ih =>
    obtain ⟨k0, v0⟩ := hd
    simp only [dictSet]
    by_cases h : k0 = k
    · subst h
      simp only [if_pos rfl, dictGet]
      by_cases h2 : k0 = k'
      · subst h2; simp
      · simp [h2]
    · simp only [if_neg h, dictGet, ih]
      by_cases h2 : k0 = k'
      · subst h2
        have hne : ¬(k = k0) := fun hh => h hh.symm
        simp [hne]
      · simp [h2]

theorem dictGet_dictSet_isSome (d : List (String × PyVal)) (k k' : String) (v : PyVal)
    (h : (dictGet d k').isSome = true) :
    (dictGet (dictSet d k v) k').isSome = true := by
  rw [dictGet_dictSet]
  by_cases hk : k = k' <;> simp [hk, h]

theorem flushCollected_isSome (col : List (String × List PyVal))
    (d : List (String × PyVal)) (k : String)
    (h : (dictGet d k).isSome = true) :
    (dictGet (flushCollected d col) k).isSome = true := by
  induction col generalizing d with
  | nil => exact h
  | cons hd tl ih =>
    simp only [flushCollected, List.foldl_cons] at *
    exact ih _ (dictGet_dictSet_isSome _ _ _ _ h)

theorem foldl_defaults_isSome (l : List Arg) (d : List (String × PyVal)) (k : String)
    (h : (dictGet d k).isSome = true) :
    (dictGet (l.foldl (fun d a => dictSet d (destOf a) (defaultValue a)) d) k).isSome = true := by
  induction l generalizing d with
  | nil => exact h
  | cons hd tl ih =>
    simp only [List.foldl_cons]
    exact ih _ (dictGet_dictSet_isSome _ _ _ _ h)

theorem applyDefaults_isSome (p : ArgParser) (a : Arg) (ha : a ∈ p.arguments) :
    (dictGet (applyDefaults p) (destOf a)).isSome = true := by
  unfold applyDefaults
  have main : ∀ (l : List Arg) (d0 : List (String × PyVal)), a ∈ l →
      (dictGet (l.foldl (fun d a => dictSet d (destOf a) (defaultValue a)) d0)
        (destOf a)).isSome = true := by
    intro l
    induction l with
    | nil => intro d0 h; cases h
    | cons hd tl ih =>
      intro d0 h
      rcases List.mem_cons.mp h with h1 | h1
      · subst h1
        simp only [List.foldl_cons]
        exact foldl_defaults_isSome tl _ _ (by rw [dictGet_dictSet]; simp)
      · simp only [List.foldl_cons]
        exact ih _ h1
  exact main p.arguments [] ha

theorem foldl_defaults_skip (l : List Arg) (d : List (String × PyVal)) (k : String)
    (h : ∀ b ∈ l, destOf b ≠ k) :
    dictGet (l.foldl (fun d a => dictSet d (destOf a) (defaultValue a)) d) k = dictGet d k := by
  induction l generalizing d with
  | nil => rfl
  | cons hd tl ih =>
    simp only [List.foldl_cons]
    rw [ih _ (fun b hb => h b (List.mem_cons_of_mem _ hb)), dictGet_dictSet,
      if_neg (h hd (List.mem_cons_self _ _))]

theorem applyDefaults_pairwise (p : ArgParser) (a : Arg)
    (hp : p.arguments.Pairwise (fun x y => destOf x ≠ destOf y))
    (ha : a ∈ p.arguments) :
    dictGet (applyDefaults p) (destOf a) = some (defaultValue a) := by
  unfold applyDefaults
  have main : ∀ (l : List Arg) (d0 : List (String × PyVal)),
      l.Pairwise (fun x y => destOf x ≠ destOf y) → a ∈ l →
      dictGet (l.foldl (fun d a => dictSet d (destOf a) (defaultValue a)) d0)
        (destOf a) = some (defaultValue a) := by
    intro l
    induction l with
    | nil => intro d0 _ h; cases h
    | cons hd tl ih =>
      intro d0 hpw h
      rcases List.pairwise_cons.mp hpw with ⟨hhd, htl⟩
      rcases List.mem_cons.mp h with h1 | h1
      · subst h1
        simp only [List.foldl_cons]
        rw [foldl_defaults_skip _ _ _ (fun b hb => (hhd b hb).symm), dictGet_dictSet, if_pos rfl]
      · simp only [List.foldl_cons]
        exact ih _ htl h1
  exact main p.arguments [] hp ha

theorem storeValue_ok (r : ParsedArgs) (a : Arg) (v : PyVal)
    (col : List (String × List PyVal)) (r2 : ParsedArgs)
    (col2 : List (String × List PyVal))
    (h : storeValue r a v col = .ok (r2, col2)) :
    r2.positionals = r.positionals ∧ r2.remaining = r.remaining ∧
      ∀ k, (dictGet r.args k).isSome = true → (dictGet r2.args k).isSome = true := by
  unfold storeValue at h
  split at h
  · simp only [Except.ok.injEq, Prod.mk.injEq] at h
    obtain ⟨rfl, rfl⟩ := h
    exact ⟨rfl, rfl, fun k hk => dictGet_dictSet_isSome _ _ _ _ hk⟩
  · split at h
    · simp only [Except.ok.injEq, Prod.mk.injEq] at h
      obtain ⟨rfl, rfl⟩ := h
      exact ⟨rfl, rfl, fun k hk => dictGet_dictSet_isSome _ _ _ _ hk⟩
    · split at h
      · split at h
        · simp only [Except.ok.injEq, Prod.mk.injEq] at h
          obtain ⟨rfl, rfl⟩ := h
          exact ⟨rfl, rfl, fun k hk => dictGet_dictSet_isSome _ _ _ _ hk⟩
        · simp at h
      · split at h
        · simp only [Except.ok.injEq, Prod.mk.injEq] at h
          obtain ⟨rfl, rfl⟩ := h
          exact ⟨rfl, rfl, fun k hk => hk⟩
        · split at h
          · simp at h
          · simp only [Except.ok.injEq, Prod.mk.injEq] at h
            obtain ⟨rfl, rfl⟩ := h
            exact ⟨rfl, rfl, fun k hk => dictGet_dictSet_isSome _ _ _ _ hk⟩

theorem processArg_le (a : Arg) (args : List String) (i : ℕ) (v : Option String)
    (i2 : ℕ) (w : PyVal) (h : processArg a args i v = .ok (i2, w)) :
    i ≤ i2 ∧ i2 ≤ i + 1 := by
  unfold processArg at h
  split at h
  · simp only [Except.ok.injEq, Prod.mk.injEq] at h
    obtain ⟨rfl, -⟩ := h
    omega
  · split at h
    · split at h
      · simp only [Except.ok.injEq, Prod.mk.injEq] at h
        obtain ⟨rfl, -⟩ := h
        omega
      · simp at h
    · split at h
      · simp only [Except.ok.injEq, Prod.mk.injEq] at h
        obtain ⟨rfl, -⟩ := h
        omega
      · split at h
        · split at h
          · simp only [Except.ok.injEq, Prod.mk.injEq] at h
            obtain ⟨rfl, -⟩ := h
            omega
          · simp at h
        · simp at h

theorem processCluster_ok (p : ArgParser) (args : List String) (cs : List Char)
    (i : ℕ) (r : ParsedArgs) (col : List (String × List PyVal))
    (i2 : ℕ) (r2 : ParsedArgs) (col2 : List (String × List PyVal))
    (h : processCluster p args cs i r col = .ok (i2, r2, col2)) :
    i ≤ i2 ∧ r2.positionals = r.positionals ∧ r2.remaining = r.remaining ∧
      ∀ k, (dictGet r.args k).isSome = true → (dictGet r2.args k).isSome = true := by
  induction cs generalizing r col with
  | nil =>
    unfold processCluster at h
    simp only [Except.ok.injEq, Prod.mk.injEq] at h
    obtain ⟨rfl, rfl, rfl⟩ := h
    exact ⟨le_refl _, rfl, rfl, fun k hk => hk⟩
  | cons c cs ih =>
    unfold processCluster at h
    split at h
    · simp at h
    · split at h
      · split at h
        · simp at h
        · rename_i r3 col3 hsv
          obtain ⟨h1, h2, h3⟩ := storeValue_ok _ _ _ _ _ _ hsv
          obtain ⟨g0, g1, g2, g3⟩ := ih _ _ h
          exact ⟨g0, g1.trans h1, g2.trans h2, fun k hk => g3 k (h3 k hk)⟩
      · split at h
        · split at h
          · simp at h
          · rename_i i3 v3 hpa
            split at h
            · simp at h
            · rename_i r3 col3 hsv
              simp only [Except.ok.injEq, Prod.mk.injEq] at h
              obtain ⟨rfl, rfl, rfl⟩ := h
              obtain ⟨h1, h2, h3⟩ := storeValue_ok _ _ _ _ _ _ hsv
              obtain ⟨hle, -⟩ := processArg_le _ _ _ _ _ _ hpa
              exact ⟨hle, h1, h2, h3⟩
        · simp at h

theorem scanLoop_inv (p : ArgParser) (args : List String) (fuel : ℕ) :
    ∀ (i posIdx : ℕ) (r : ParsedArgs) (col : List (String × List PyVal))
      (r2 : ParsedArgs) (col2 : List (String × List PyVal)),
      scanLoop p args fuel i posIdx r col = .ok (r2, col2) →
      r2.positionals = r.positionals ∧
        ∀ k, (dictGet r.args k).isSome = true → (dictGet r2.args k).isSome = true := by
  induction fuel with
  | zero =>
    intro i posIdx r col r2 col2 h
    unfold scanLoop at h
    simp only [Except.ok.injEq, Prod.mk.injEq] at h
    obtain ⟨rfl, rfl⟩ := h
    exact ⟨rfl, fun k hk => hk⟩
  | succ fuel ih =>
    intro i posIdx r col r2 col2 h
    unfold scanLoop at h
    split at h
    · simp only [Except.ok.injEq, Prod.mk.injEq] at h
      obtain ⟨rfl, rfl⟩ := h
      exact ⟨rfl, fun k hk => hk⟩
    · split at h
      · simp only [Except.ok.injEq, Prod.mk.injEq] at h
        obtain ⟨rfl, rfl⟩ := h
        exact ⟨rfl, fun k hk => hk⟩
      · split at h
        · split at h
          · split at h
            · simp at h
            · split at h
              · simp at h
              · rename_i i3 v3 hpa
                split at h
                · simp at h
                · rename_i r3 col3 hsv
                  obtain ⟨h1, -, h3⟩ := storeValue_ok _ _ _ _ _ _ hsv
                  obtain ⟨g1, g3⟩ := ih _ _ _ _ _ _ h
                  exact ⟨g1.trans h1, fun k hk => g3 k (h3 k hk)⟩
        · split at h
          · split at h
            · simp at h
            · rename_i i3 r3 col3 hpc
              obtain ⟨-, h1, -, h3⟩ := processCluster_ok _ _ _ _ _ _ _ _ _ hpc
              obtain ⟨g1, g3⟩ := ih _ _ _ _ _ _ h
              exact ⟨g1.trans h1, fun k hk => g3 k (h3 k hk)⟩
          · split at h
            · split at h
              · simp at h
              · split at h
                · simp at h
                · split at h
                  · obtain ⟨g1, g3⟩ := ih _ _ _ _ _ _ h
                    exact ⟨g1, g3⟩
                  · obtain ⟨g1, g3⟩ := ih _ _ _ _ _ _ h
                    exact ⟨g1, fun k hk => g3 k (dictGet_dictSet_isSome _ _ _ _ hk)⟩
            · obtain ⟨g1, g3⟩ := ih _ _ _ _ _ _ h
              exact ⟨g1, g3⟩

theorem scanLoop_fuel (p : ArgParser) (args : List String) (fuel : ℕ) :
    ∀ (i posIdx : ℕ) (r : ParsedArgs) (col : List (String × List PyVal)),
      args.length ≤ i + fuel →
      scanLoop p args (fuel + 1) i posIdx r col
        = scanLoop p args (fuel + 1 + 1) i posIdx r col := by
  induction fuel with
  | zero =>
    intro i posIdx r col hle
    have hi : args[i]? = Option.none := by
      rw [List.getElem?_eq_none]
      omega
    conv_lhs => rw [scanLoop]
    conv_rhs => rw [scanLoop]
    rw [hi]
  | succ fuel ih =>
    intro i posIdx r col hle
    conv_lhs => rw [scanLoop]
    conv_rhs => rw [scanLoop]
    split
    · rfl
    · split
      · rfl
      · split
        · split
          · split
            · rfl
            · split
              · rfl
              · rename_i i3 v3 hpa
                split
                · rfl
                · obtain ⟨h1, -⟩ := processArg_le _ _ _ _ _ _ hpa
                  exact ih _ _ _ _ (by omega)
        · split
          · split
            · rfl
            · rename_i i3 r3 col3 hpc
              obtain ⟨h1, -, -, -⟩ := processCluster_ok _ _ _ _ _ _ _ _ _ hpc
              exact ih _ _ _ _ (by omega)
          · split
            · split
              · rfl
              · split
                · rfl
                · split
                  · exact ih _ _ _ _ (by omega)
                  · exact ih _ _ _ _ (by omega)
            · exact ih _ _ _ _ (by omega)

theorem processArg_congr (a : Arg) (args1 args2 : List String) (i : ℕ) (v : Option String)
    (hlen : args1.length = args2.length) (hget : args1[i+1]? = args2[i+1]?) :
    processArg a args1 i v = processArg a args2 i v := by
  unfold processArg
  rw [hlen, hget]

theorem processCluster_congr (p : ArgParser) (args1 args2 : List String) (cs : List Char)
    (i : ℕ) (hlen : args1.length = args2.length) (hget : args1[i+1]? = args2[i+1]?) :
    ∀ (r : ParsedArgs) (col : List (String × List PyVal)),
      processCluster p args1 cs i r col = processCluster p args2 cs i r col := by
  induction cs with
  | nil => intro r col; rfl
  | cons c cs ih =>
    intro r col
    unfold processCluster
    split
    · rfl
    · split
      · split
        · rfl
        · exact ih _ _
      · rename_i a2 hfa hact
        split
        · rw [processArg_congr a2 args1 args2 i Option.none hlen hget]
        · rfl

theorem scanLoop_congr (p : ArgParser) (args1 args2 : List String) (fuel : ℕ)
    (hlen : args1.length = args2.length) :
    ∀ (i posIdx : ℕ) (r : ParsedArgs) (col : List (String × List PyVal)),
      args1.drop i = args2.drop i →
      scanLoop p args1 fuel i posIdx r col = scanLoop p args2 fuel i posIdx r col := by
  induction fuel with
  | zero => intro i posIdx r col hdrop; rfl
  | succ fuel ih =>
    intro i posIdx r col hdrop
    have hget : ∀ j, i ≤ j → args1[j]? = args2[j]? := by
      intro j hij
      have e1 : args1[j]? = (args1.drop i)[j - i]? := by
        rw [List.getElem?_drop]
        congr 1
        omega
      have e2 : args2[j]? = (args2.drop i)[j - i]? := by
        rw [List.getElem?_drop]
        congr 1
        omega
      rw [e1, e2, hdrop]
    have hdropj : ∀ j, i ≤ j → args1.drop j = args2.drop j := by
      intro j hij
      have e1 : args1.drop j = (args1.drop i).drop (j - i) := by
        rw [List.drop_drop]
        congr 1
        omega
      have e2 : args2.drop j = (args2.drop i).drop (j - i) := by
        rw [List.drop_drop]
        congr 1
        omega
      rw [e1, e2, hdrop]
    conv_lhs => rw [scanLoop]
    conv_rhs => rw [scanLoop]
    rw [hget i (le_refl i)]
    split
    · rfl
    · split
      · rw [hdropj (i + 1) (by omega)]
      · split
        · split
          · rename_i key mv hkv
            split
            · rfl
            · rename_i a2 hfa
              rw [processArg_congr a2 args1 args2 i mv hlen (hget (i + 1) (by omega))]
              split
              · rfl
              · rename_i i3 v3 hpa
                split
                · rfl
                · obtain ⟨h1, -⟩ := processArg_le _ _ _ _ _ _ hpa
                  exact ih _ _ _ _ (hdropj (i3 + 1) (by omega))
        · split
          · rw [processCluster_congr p args1 args2 _ i hlen (hget (i + 1) (by omega))]
            split
            · rfl
            · rename_i i3 r3 col3 hpc
              obtain ⟨h1, -, -, -⟩ := processCluster_ok _ _ _ _ _ _ _ _ _ hpc
              exact ih _ _ _ _ (hdropj (i3 + 1) (by omega))
          · split
            · split
              · rfl
              · split
                · rfl
                · split
                  · exact ih _ _ _ _ (hdropj (i + 1) (by omega))
                  · exact ih _ _ _ _ (hdropj (i + 1) (by omega))
            · exact ih _ _ _ _ (hdropj (i + 1) (by omega))

/-- Spec-side grammar: the continuation of a digit run after its first
digit (`(digit | _ digit)*` — underscores only between digits). -/
def wfTail : List Char → Bool
  | [] => true
  | c :: cs =>
    if c.isDigit then wfTail cs
    else if c = '_' then
      match cs with
      | c2 :: cs2 => c2.isDigit && wfTail cs2
      | [] => false
    else false

/-- Spec-side grammar: a nonempty underscore-grouped digit run
(`digit (digit | _ digit)*`). -/
def wfGroup : List Char → Bool
  | [] => false
  | c :: cs => c.isDigit && wfTail cs

/-- A character list is `P` after removing an optional leading sign. -/
def SignedP (P : List Char → Prop) (cs : List Char) : Prop :=
  P cs ∨ ∃ rest, (cs = '+' :: rest ∨ cs = '-' :: rest) ∧ P rest

/-- The spec's notion of a well-formed integer token (what the language's
`int(...)` accepts): stripped of whitespace, an optional sign followed by
one digit run. -/
def IntWF (s : String) : Prop :=
  SignedP (fun cs => wfGroup cs = true) (stripWs s.toList)

/-- Spec-side grammar: the mantissa of a float literal
(`digits | digits. | digits.digits | .digits`). -/
def FracP (cs : List Char) : Prop :=
  wfGroup cs = true
    ∨ (∃ g, wfGroup g = true ∧ cs = g ++ ['.'])
    ∨ (∃ g h, wfGroup g = true ∧ wfGroup h = true ∧ cs = g ++ '.' :: h)
    ∨ (∃ h, wfGroup h = true ∧ cs = '.' :: h)

/-- Spec-side grammar: an optional exponent part (`ε | (e|E) [sign] digits`). -/
def ExpP (cs : List Char) : Prop :=
  cs = [] ∨ ∃ e sgn g, (e = 'e' ∨ e = 'E') ∧ (sgn = [] ∨ sgn = ['+'] ∨ sgn = ['-'])
    ∧ wfGroup g = true ∧ cs = e :: (sgn ++ g)

/-- Spec-side grammar: the case-insensitive special float words. -/
def SpecialP (cs : List Char) : Prop :=
  cs.map Char.toLower = ['i', 'n', 'f']
    ∨ cs.map Char.toLower = ['i', 'n', 'f', 'i', 'n', 'i', 't', 'y']
    ∨ cs.map Char.toLower = ['n', 'a', 'n']

/-- Spec-side grammar: the numeric body of a float literal. -/
def NumP (cs : List Char) : Prop :=
  ∃ m e, FracP m ∧ ExpP e ∧ cs = m ++ e

/-- The spec's notion of a well-formed float token (what the language's
`float(...)` accepts). -/
def FloatWF (s : String) : Prop :=
  SignedP (fun cs => NumP cs ∨ SpecialP cs) (stripWs s.toList)

/-- A continuation before which a maximal digit run must stop: empty, or
starting with a character that is neither a digit nor an underscore. -/
def headOk : List Char → Prop
  | [] => True
  | c :: _ => c.isDigit = false ∧ c ≠ '_'

theorem toLower_of_isDigit (c : Char) (h : c.isDigit = true) : Char.toLower c = c := by
  simp [Char.isDigit] at h
  obtain ⟨h1, h2⟩ := h
  have hle : c.val.toNat ≤ 57 := UInt32.toNat_le_of_le (by norm_num [UInt32.size]) h2
  simp only [Char.toLower]
  rw [if_neg]
  intro hcon
  obtain ⟨g1, g2⟩ := hcon
  simp only [Char.toNat] at g1 g2
  omega

theorem underscore_not_digit : ('_' : Char).isDigit = false := by decide

theorem moreDigits_cons_digit (acc k : ℕ) (c : Char) (cs : List Char) (h : c.isDigit = true) :
    moreDigits acc k (c :: cs) = moreDigits (acc * 10 + digitVal c) (k + 1) cs := by
  rw [moreDigits.eq_def]
  simp only [h, if_true]

theorem moreDigits_cons_stop (acc k : ℕ) (c : Char) (cs : List Char)
    (h1 : c.isDigit = false) (h2 : c ≠ '_') :
    moreDigits acc k (c :: cs) = (acc, k, c :: cs) := by
  rw [moreDigits.eq_def]
  simp only [h1, Bool.false_eq_true, if_false, if_neg h2]

theorem moreDigits_underscore_digit (acc k : ℕ) (c2 : Char) (cs2 : List Char)
    (h : c2.isDigit = true) :
    moreDigits acc k ('_' :: c2 :: cs2) = moreDigits (acc * 10 + digitVal c2) (k + 1) cs2 := by
  rw [moreDigits.eq_def]
  simp only [underscore_not_digit, h, Bool.false_eq_true, if_false, if_true, if_pos rfl]

theorem moreDigits_underscore_stop (acc k : ℕ) (c2 : Char) (cs2 : List Char)
    (h : c2.isDigit = false) :
    moreDigits acc k ('_' :: c2 :: cs2) = (acc, k, '_' :: c2 :: cs2) := by
  rw [moreDigits.eq_def]
  simp only [underscore_not_digit, h, Bool.false_eq_true, if_false, if_pos rfl]
  exact if_pos trivial

theorem moreDigits_underscore_nil (acc k : ℕ) :
    moreDigits acc k ['_'] = (acc, k, ['_']) := by
  rw [moreDigits.eq_def]
  simp only [underscore_not_digit, Bool.false_eq_true, if_false, if_pos rfl]
  exact if_pos trivial

theorem wfTail_cons_digit (c : Char) (cs : List Char) (h : c.isDigit = true) :
    wfTail (c :: cs) = wfTail cs := by
  rw [wfTail.eq_def]
  simp only [h, if_true]

theorem wfTail_cons_stop (c : Char) (cs : List Char) (h1 : c.isDigit = false) (h2 : c ≠ '_') :
    wfTail (c :: cs) = false := by
  rw [wfTail.eq_def]
  simp only [h1, Bool.false_eq_true, if_false, if_neg h2]

theorem wfTail_underscore (c2 : Char) (cs2 : List Char) :
    wfTail ('_' :: c2 :: cs2) = (c2.isDigit && wfTail cs2) := by
  rw [wfTail.eq_def]
  simp only [underscore_not_digit, Bool.false_eq_true, if_false, if_pos rfl]
  exact if_pos trivial

theorem wfTail_underscore_nil : wfTail ['_'] = false := by decide

theorem wfGroup_cons (c : Char) (cs : List Char) :
    wfGroup (c :: cs) = (c.isDigit && wfTail cs) := rfl

theorem takeDigits_cons (c : Char) (cs : List Char) :
    takeDigits (c :: cs)
      = if c.isDigit = true then some (moreDigits (digitVal c) 1 cs) else Option.none := rfl

theorem moreDigits_stop (rest : List Char) (acc k : ℕ) (h : headOk rest) :
    moreDigits acc k rest = (acc, k, rest) := by
  match rest with
  | [] => rfl
  | c :: cs =>
    simp only [headOk] at h
    exact moreDigits_cons_stop acc k c cs h.1 h.2

theorem moreDigits_append :
    ∀ (t : List Char), wfTail t = true →
      ∀ (rest : List Char) (acc k : ℕ), headOk rest →
        ∃ n k2, moreDigits acc k (t ++ rest) = (n, k2, rest) := by
  intro t
  induction t using wfTail.induct with
  | case1 =>
    intro _ rest acc k hr
    exact ⟨acc, k, moreDigits_stop rest acc k hr⟩
  | case2 c cs hdig ih =>
    intro ht rest acc k hr
    rw [wfTail_cons_digit c cs hdig] at ht
    obtain ⟨n, k2, hm⟩ := ih ht rest (acc * 10 + digitVal c) (k + 1) hr
    refine ⟨n, k2, ?_⟩
    rw [List.cons_append, moreDigits_cons_digit acc k c (cs ++ rest) hdig]
    exact hm
  | case3 c cs hnd ih =>
    intro ht rest acc k hr
    rw [wfTail_underscore c cs, Bool.and_eq_true] at ht
    obtain ⟨hc, ht2⟩ := ht
    obtain ⟨n, k2, hm⟩ := ih ht2 rest (acc * 10 + digitVal c) (k + 1) hr
    refine ⟨n, k2, ?_⟩
    have : ('_' :: c :: cs) ++ rest = '_' :: c :: (cs ++ rest) := rfl
    rw [this, moreDigits_underscore_digit acc k c (cs ++ rest) hc]
    exact hm
  | case4 hnd =>
    intro ht
    exact absurd ht (by decide)
  | case5 c cs hnd hne =>
    intro ht
    rw [wfTail_cons_stop c cs (by simpa using hnd) hne] at ht
    cases ht

theorem moreDigits_split :
    ∀ (acc k : ℕ) (cs : List Char) (n k2 : ℕ) (rest : List Char),
      moreDigits acc k cs = (n, k2, rest) →
      ∃ t, cs = t ++ rest ∧ wfTail t = true := by
  intro acc k cs
  induction acc, k, cs using moreDigits.induct with
  | case1 a b =>
    intro n k2 rest h
    simp only [moreDigits, Prod.mk.injEq] at h
    obtain ⟨-, -, rfl⟩ := h
    exact ⟨[], rfl, rfl⟩
  | case2 a b c d hdig ih =>
    intro n k2 rest h
    rw [moreDigits_cons_digit a b c d hdig] at h
    obtain ⟨t, hteq, htwf⟩ := ih n k2 rest h
    refine ⟨c :: t, by rw [hteq, List.cons_append], ?_⟩
    rw [wfTail_cons_digit c t hdig]
    exact htwf
  | case3 a b c d hdig hu ih =>
    intro n k2 rest h
    rw [moreDigits_underscore_digit a b c d hdig] at h
    obtain ⟨t, hteq, htwf⟩ := ih n k2 rest h
    refine ⟨'_' :: c :: t, by rw [hteq]; rfl, ?_⟩
    rw [wfTail_underscore c t, hdig, htwf]
    rfl
  | case4 a b c d hnd hu =>
    intro n k2 rest h
    rw [moreDigits_underscore_stop a b c d (by simpa using hnd)] at h
    simp only [Prod.mk.injEq] at h
    obtain ⟨-, -, rfl⟩ := h
    exact ⟨[], rfl, rfl⟩
  | case5 a b hu =>
    intro n k2 rest h
    rw [moreDigits_underscore_nil a b] at h
    simp only [Prod.mk.injEq] at h
    obtain ⟨-, -, rfl⟩ := h
    exact ⟨[], rfl, rfl⟩
  | case6 a b c d hnd hne =>
    intro n k2 rest h
    rw [moreDigits_cons_stop a b c d (by simpa using hnd) hne] at h
    simp only [Prod.mk.injEq] at h
    obtain ⟨-, -, rfl⟩ := h
    exact ⟨[], rfl, rfl⟩

theorem takeDigits_append (g rest : List Char) (hg : wfGroup g = true) (hr : headOk rest) :
    ∃ n k, takeDigits (g ++ rest) = some (n, k, rest) := by
  match g with
  | [] => simp [wfGroup] at hg
  | c :: t =>
    rw [wfGroup_cons, Bool.and_eq_true] at hg
    obtain ⟨hc, ht⟩ := hg
    obtain ⟨n, k2, hm⟩ := moreDigits_append t ht rest (digitVal c) 1 hr
    refine ⟨n, k2, ?_⟩
    rw [List.cons_append, takeDigits_cons, if_pos hc, hm]

theorem takeDigits_split (cs : List Char) (n k : ℕ) (rest : List Char)
    (h : takeDigits cs = some (n, k, rest)) :
    ∃ g, cs = g ++ rest ∧ wfGroup g = true := by
  match cs with
  | [] => simp [takeDigits] at h
  | c :: cs2 =>
    rw [takeDigits_cons] at h
    by_cases hc : c.isDigit = true
    · rw [if_pos hc] at h
      injection h with h2
      obtain ⟨t, hteq, htwf⟩ := moreDigits_split _ _ _ _ _ _ h2
      refine ⟨c :: t, by rw [hteq, List.cons_append], ?_⟩
      rw [wfGroup_cons, hc, htwf]
      rfl
    · rw [if_neg hc] at h
      cases h

theorem intDigits_isSome_iff (cs : List Char) :
    (intDigits cs).isSome = true ↔ wfGroup cs = true := by
  constructor
  · intro h
    unfold intDigits at h
    split at h
    · rename_i n k heq
      obtain ⟨g, hg1, hg2⟩ := takeDigits_split _ _ _ _ heq
      rw [List.append_nil] at hg1
      rw [hg1]
      exact hg2
    · simp at h
  · intro h
    obtain ⟨n, k, hk⟩ := takeDigits_append cs [] h trivial
    rw [List.append_nil] at hk
    unfold intDigits
    rw [hk]
    rfl

theorem wfGroup_head_digit (cs : List Char) (h : wfGroup cs = true) :
    ∃ c t, cs = c :: t ∧ c.isDigit = true := by
  match cs with
  | [] => cases h
  | c :: t =>
    rw [wfGroup_cons, Bool.and_eq_true] at h
    exact ⟨c, t, rfl, h.1⟩

theorem pyInt_isSome_iff (s : String) : (pyInt s).isSome = true ↔ IntWF s := by
  unfold pyInt IntWF SignedP
  generalize stripWs s.toList = cs
  split
  · rename_i rest
    rw [Option.isSome_map', intDigits_isSome_iff]
    constructor
    · intro h
      exact Or.inr ⟨rest, Or.inl rfl, h⟩
    · rintro (h | ⟨rest2, hsign, h2⟩)
      · obtain ⟨c, t, hct, hcd⟩ := wfGroup_head_digit _ h
        injection hct with h1 h2'
        subst h1
        exact absurd hcd (by decide)
      · rcases hsign with heq | heq
        · injection heq with h1 h2'
          subst h2'
          exact h2
        · injection heq with h1 h2'
          exact absurd h1 (by decide)
  · rename_i rest
    rw [Option.isSome_map', intDigits_isSome_iff]
    constructor
    · intro h
      exact Or.inr ⟨rest, Or.inr rfl, h⟩
    · rintro (h | ⟨rest2, hsign, h2⟩)
      · obtain ⟨c, t, hct, hcd⟩ := wfGroup_head_digit _ h
        injection hct with h1 h2'
        subst h1
        exact absurd hcd (by decide)
      · rcases hsign with heq | heq
        · injection heq with h1 h2'
          exact absurd h1 (by decide)
        · injection heq with h1 h2'
          subst h2'
          exact h2
  · rename_i hne1 hne2
    rw [Option.isSome_map', intDigits_isSome_iff]
    constructor
    · intro h
      exact Or.inl h
    · rintro (h | ⟨rest2, heq | heq, h2⟩)
      · exact h
      · exact absurd heq (fun hh => hne1 rest2 hh)
      · exact absurd heq (fun hh => hne2 rest2 hh)

theorem headOk_expTail (e : Char) (he : e = 'e' ∨ e = 'E') (r : List Char) :
    headOk (e :: r) := by
  rcases he with rfl | rfl
  · exact ⟨by decide, by decide⟩
  · exact ⟨by decide, by decide⟩

theorem headOk_dot (r : List Char) : headOk ('.' :: r) :=
  ⟨by decide, by decide⟩

theorem takeDigits_none_of_head (c : Char) (cs : List Char) (h : c.isDigit = false) :
    takeDigits (c :: cs) = Option.none := by
  rw [takeDigits_cons, if_neg]
  simp [h]

theorem expVal_isSome_iff (cs : List Char) :
    (expVal cs).isSome = true
      ↔ ∃ sgn g, (sgn = [] ∨ sgn = ['+'] ∨ sgn = ['-']) ∧ wfGroup g = true
          ∧ cs = sgn ++ g := by
  unfold expVal
  split
  · rename_i r
    rw [Option.isSome_map', intDigits_isSome_iff]
    constructor
    · intro h
      exact ⟨['+'], r, Or.inr (Or.inl rfl), h, rfl⟩
    · rintro ⟨sgn, g, hs | hs | hs, hg, heq⟩
      · subst hs
        simp only [List.nil_append] at heq
        obtain ⟨c0, t0, hct, hcd⟩ := wfGroup_head_digit _ hg
        rw [← heq] at hct
        injection hct with h1 _
        subst h1
        exact absurd hcd (by decide)
      · subst hs
        simp only [List.cons_append, List.nil_append] at heq
        injection heq with _ h2
        rw [h2]
        exact hg
      · subst hs
        simp only [List.cons_append, List.nil_append] at heq
        injection heq with h1 _
        exact absurd h1 (by decide)
  · rename_i r
    rw [Option.isSome_map', intDigits_isSome_iff]
    constructor
    · intro h
      exact ⟨['-'], r, Or.inr (Or.inr rfl), h, rfl⟩
    · rintro ⟨sgn, g, hs | hs | hs, hg, heq⟩
      · subst hs
        simp only [List.nil_append] at heq
        obtain ⟨c0, t0, hct, hcd⟩ := wfGroup_head_digit _ hg
        rw [← heq] at hct
        injection hct with h1 _
        subst h1
        exact absurd hcd (by decide)
      · subst hs
        simp only [List.cons_append, List.nil_append] at heq
        injection heq with h1 _
        exact absurd h1 (by decide)
      · subst hs
        simp only [List.cons_append, List.nil_append] at heq
        injection heq with _ h2
        rw [h2]
        exact hg
  · rename_i hne1 hne2
    rw [Option.isSome_map', intDigits_isSome_iff]
    constructor
    · intro h
      exact ⟨[], cs, Or.inl rfl, h, by simp⟩
    · rintro ⟨sgn, g, hs | hs | hs, hg, heq⟩
      · subst hs
        simp only [List.nil_append] at heq
        rw [heq]
        exact hg
      · subst hs
        simp only [List.cons_append, List.nil_append] at heq
        exact absurd heq (fun hh => hne1 g hh)
      · subst hs
        simp only [List.cons_append, List.nil_append] at heq
        exact absurd heq (fun hh => hne2 g hh)

theorem afterMant_isSome_iff (neg : Bool) (ip fp fd : ℕ) (cs : List Char) :
    (afterMant neg ip fp fd cs).isSome = true ↔ ExpP cs := by
  unfold afterMant ExpP
  split
  · simp
  · rename_i c r
    split
    · rename_i he
      rw [Option.isSome_map', expVal_isSome_iff]
      constructor
      · rintro ⟨sgn, g, hs, hg, heq⟩
        exact Or.inr ⟨c, sgn, g, he, hs, hg, by rw [heq]⟩
      · rintro (h | ⟨e, sgn, g, he2, hs, hg, heq⟩)
        · cases h
        · injection heq with h1 h2
          exact ⟨sgn, g, hs, hg, h2⟩
    · rename_i he
      simp only [Option.isSome_none, Bool.false_eq_true, false_iff]
      rintro (h | ⟨e, sgn, g, he2, hs, hg, heq⟩)
      · cases h
      · injection heq with h1 _
        exact he (h1 ▸ he2)

theorem mantissa_red1 (neg : Bool) (cs : List Char) (ip kk : ℕ) (rest : List Char)
    (h : takeDigits cs = some (ip, kk, rest)) (hnd : ∀ r2, rest ≠ '.' :: r2) :
    mantissa neg cs = afterMant neg ip 0 0 rest := by
  unfold mantissa
  split
  · rename_i ip2 kk2 rest2 heq2
    rw [h] at heq2
    simp only [Option.some.injEq, Prod.mk.injEq] at heq2
    obtain ⟨rfl, rfl, hr⟩ := heq2
    subst hr
    split
    · exfalso
      rename_i tail
      exact hnd tail rfl
    · rfl
  · rename_i heq2
    rw [h] at heq2
    cases heq2

theorem mantissa_red2 (neg : Bool) (cs : List Char) (ip kk fp fd : ℕ) (r2 r3 : List Char)
    (h : takeDigits cs = some (ip, kk, '.' :: r2)) (h2 : takeDigits r2 = some (fp, fd, r3)) :
    mantissa neg cs = afterMant neg ip fp fd r3 := by
  unfold mantissa
  split
  · rename_i ip2 kk2 rest2 heq2
    rw [h] at heq2
    simp only [Option.some.injEq, Prod.mk.injEq] at heq2
    obtain ⟨rfl, rfl, hr⟩ := heq2
    subst hr
    split
    · rename_i r32 heq3
      injection heq3 with _ hr2
      subst hr2
      split
      · rename_i fp2 fd2 r33 heq4
        rw [h2] at heq4
        simp only [Option.some.injEq, Prod.mk.injEq] at heq4
        obtain ⟨rfl, rfl, rfl⟩ := heq4
        rfl
      · rename_i heq4
        rw [h2] at heq4
        cases heq4
    · rename_i heq3
      exact ((heq3 r2 rfl).elim)
  · rename_i heq2
    rw [h] at heq2
    cases heq2

theorem mantissa_red3 (neg : Bool) (cs : List Char) (ip kk : ℕ) (r2 : List Char)
    (h : takeDigits cs = some (ip, kk, '.' :: r2)) (h2 : takeDigits r2 = Option.none) :
    mantissa neg cs = afterMant neg ip 0 0 r2 := by
  unfold mantissa
  split
  · rename_i ip2 kk2 rest2 heq2
    rw [h] at heq2
    simp only [Option.some.injEq, Prod.mk.injEq] at heq2
    obtain ⟨rfl, rfl, hr⟩ := heq2
    subst hr
    split
    · rename_i r32 heq3
      injection heq3 with _ hr2
      subst hr2
      split
      · rename_i fp2 fd2 r33 heq4
        rw [h2] at heq4
        cases heq4
      · rfl
    · rename_i heq3
      exact ((heq3 r2 rfl).elim)
  · rename_i heq2
    rw [h] at heq2
    cases heq2

theorem mantissa_red4 (neg : Bool) (r2 r3 : List Char) (fp fd : ℕ)
    (h : takeDigits ('.' :: r2) = Option.none) (h2 : takeDigits r2 = some (fp, fd, r3)) :
    mantissa neg ('.' :: r2) = afterMant neg 0 fp fd r3 := by
  unfold mantissa
  split
  · rename_i ip2 kk2 rest2 heq2
    rw [h] at heq2
    cases heq2
  · split
    · rename_i r32 heq3
      injection heq3 with _ hr2
      subst hr2
      split
      · rename_i fp2 fd2 r33 heq4
        rw [h2] at heq4
        simp only [Option.some.injEq, Prod.mk.injEq] at heq4
        obtain ⟨rfl, rfl, rfl⟩ := heq4
        rfl
      · rename_i heq4
        rw [h2] at heq4
        cases heq4
    · rename_i heq3
      exact ((heq3 r2 rfl).elim)

theorem ExpP_not_dot (e : List Char) (he : ExpP e) : ∀ r2, e ≠ '.' :: r2 := by
  intro r2 hcon
  rcases he with rfl | ⟨ec, sgn, g, hec, hs, hg, heq⟩
  · cases hcon
  · rw [heq] at hcon
    injection hcon with h1 _
    rcases hec with rfl | rfl
    · exact absurd h1 (by decide)
    · exact absurd h1 (by decide)

theorem ExpP_headOk (e : List Char) (he : ExpP e) : headOk e := by
  rcases he with rfl | ⟨ec, sgn, g, hec, hs, hg, heq⟩
  · trivial
  · rw [heq]
    exact headOk_expTail ec hec _

theorem ExpP_takeDigits_none (e : List Char) (he : ExpP e) :
    takeDigits e = Option.none := by
  rcases he with rfl | ⟨ec, sgn, g, hec, hs, hg, heq⟩
  · rfl
  · rw [heq]
    rcases hec with rfl | rfl
    · exact takeDigits_none_of_head _ _ (by decide)
    · exact takeDigits_none_of_head _ _ (by decide)

theorem mantissa_isSome_iff (neg : Bool) (cs : List Char) :
    (mantissa neg cs).isSome = true ↔ NumP cs := by
  constructor
  · intro h
    unfold mantissa at h
    split at h
    · rename_i ip kk rest heq
      obtain ⟨g, hg1, hg2⟩ := takeDigits_split _ _ _ _ heq
      split at h
      · rename_i r2
        split at h
        · rename_i fp fd r3 heq2
          obtain ⟨g2, hg21, hg22⟩ := takeDigits_split _ _ _ _ heq2
          rw [afterMant_isSome_iff] at h
          refine ⟨g ++ '.' :: g2, r3, Or.inr (Or.inr (Or.inl ⟨g, g2, hg2, hg22, rfl⟩)), h, ?_⟩
          rw [hg1, hg21]
          simp
        · rw [afterMant_isSome_iff] at h
          refine ⟨g ++ ['.'], r2, Or.inr (Or.inl ⟨g, hg2, rfl⟩), h, ?_⟩
          rw [hg1]
          simp
      · rw [afterMant_isSome_iff] at h
        exact ⟨g, rest, Or.inl hg2, h, hg1⟩
    · split at h
      · rename_i r2
        split at h
        · rename_i fp fd r3 heq2
          obtain ⟨g2, hg21, hg22⟩ := takeDigits_split _ _ _ _ heq2
          rw [afterMant_isSome_iff] at h
          refine ⟨'.' :: g2, r3, Or.inr (Or.inr (Or.inr ⟨g2, hg22, rfl⟩)), h, ?_⟩
          rw [hg21]
          rfl
        · simp at h
      · simp at h
  · rintro ⟨m, e, hm, he, rfl⟩
    have heOk : headOk e := ExpP_headOk e he
    rcases hm with hg | ⟨g, hg, rfl⟩ | ⟨g, h2, hg, hh2, rfl⟩ | ⟨h2, hh2, rfl⟩
    · obtain ⟨n, k, htd⟩ := takeDigits_append m e hg heOk
      rw [mantissa_red1 neg _ n k e htd (ExpP_not_dot e he), afterMant_isSome_iff]
      exact he
    · obtain ⟨n, k, htd⟩ := takeDigits_append g ('.' :: e) hg (headOk_dot e)
      have hshape : (g ++ ['.']) ++ e = g ++ ('.' :: e) := by simp
      rw [hshape, mantissa_red3 neg _ n k e htd (ExpP_takeDigits_none e he),
        afterMant_isSome_iff]
      exact he
    · obtain ⟨fp, fd, htd2⟩ := takeDigits_append h2 e hh2 heOk
      obtain ⟨n, k, htd⟩ := takeDigits_append g ('.' :: (h2 ++ e)) hg (headOk_dot _)
      have hshape : (g ++ '.' :: h2) ++ e = g ++ ('.' :: (h2 ++ e)) := by simp
      rw [hshape, mantissa_red2 neg _ n k fp fd (h2 ++ e) e htd htd2, afterMant_isSome_iff]
      exact he
    · obtain ⟨fp, fd, htd2⟩ := takeDigits_append h2 e hh2 heOk
      have hshape : ('.' :: h2) ++ e = '.' :: (h2 ++ e) := rfl
      have hnone : takeDigits ('.' :: (h2 ++ e)) = Option.none :=
        takeDigits_none_of_head _ _ (by decide)
      rw [hshape, mantissa_red4 neg (h2 ++ e) e fp fd hnone htd2, afterMant_isSome_iff]
      exact he

theorem NumP_head (cs : List Char) (h : NumP cs) :
    ∃ c0 t, cs = c0 :: t ∧ (c0.isDigit = true ∨ c0 = '.') := by
  obtain ⟨m, e, hm, he, rfl⟩ := h
  rcases hm with hg | ⟨g, hg, rfl⟩ | ⟨g, h2, hg, hh2, rfl⟩ | ⟨h2, hh2, rfl⟩
  · obtain ⟨c, t, hgct, hcd⟩ := wfGroup_head_digit _ hg
    exact ⟨c, t ++ e, by rw [hgct]; rfl, Or.inl hcd⟩
  · obtain ⟨c, t, hgct, hcd⟩ := wfGroup_head_digit _ hg
    exact ⟨c, (t ++ ['.']) ++ e, by rw [hgct]; simp, Or.inl hcd⟩
  · obtain ⟨c, t, hgct, hcd⟩ := wfGroup_head_digit _ hg
    exact ⟨c, (t ++ '.' :: h2) ++ e, by rw [hgct]; simp, Or.inl hcd⟩
  · exact ⟨'.', h2 ++ e, rfl, Or.inr rfl⟩

theorem signhead_not_body (c : Char) (r : List Char) (hd : c.isDigit = false)
    (hdot : ¬c = '.') (hi : Char.toLower c ≠ 'i') (hn : Char.toLower c ≠ 'n') :
    ¬(NumP (c :: r) ∨ SpecialP (c :: r)) := by
  rintro (h | h)
  · obtain ⟨c0, t, heq, hc⟩ := NumP_head _ h
    injection heq with h1 _
    subst h1
    rcases hc with hdd | hdotc
    · rw [hd] at hdd
      cases hdd
    · exact hdot hdotc
  · rcases h with h1 | h1 | h1
    · rw [List.map_cons] at h1
      injection h1 with h2 _
      exact hi h2
    · rw [List.map_cons] at h1
      injection h1 with h2 _
      exact hi h2
    · rw [List.map_cons] at h1
      injection h1 with h2 _
      exact hn h2

theorem pyFloatBody_isSome_iff (neg : Bool) (cs : List Char) :
    (pyFloatBody neg cs).isSome = true ↔ (NumP cs ∨ SpecialP cs) := by
  unfold pyFloatBody
  split
  · rename_i hif
    simp only [Option.isSome_some, true_iff]
    rcases hif with h1 | h1
    · exact Or.inr (Or.inl h1)
    · exact Or.inr (Or.inr (Or.inl h1))
  · rename_i hif
    split
    · rename_i hif2
      simp only [Option.isSome_some, true_iff]
      exact Or.inr (Or.inr (Or.inr hif2))
    · rename_i hif2
      rw [mantissa_isSome_iff]
      constructor
      · exact Or.inl
      · rintro (h | hsp)
        · exact h
        · rcases hsp with h1 | h1 | h1
          · exact absurd (Or.inl h1) hif
          · exact absurd (Or.inr h1) hif
          · exact absurd h1 hif2

theorem pyFloat_isSome_iff (s : String) : (pyFloat s).isSome = true ↔ FloatWF s := by
  unfold pyFloat FloatWF SignedP
  generalize stripWs s.toList = cs
  split
  · rename_i rest
    rw [pyFloatBody_isSome_iff]
    constructor
    · intro h
      exact Or.inr ⟨rest, Or.inl rfl, h⟩
    · rintro (h | ⟨rest2, hsign, h2⟩)
      · exact absurd h (signhead_not_body '+' rest (by decide) (by decide) (by decide) (by decide))
      · rcases hsign with heq | heq
        · injection heq with _ h3
          rw [h3]
          exact h2
        · injection heq with h3 _
          exact absurd h3 (by decide)
  · rename_i rest
    rw [pyFloatBody_isSome_iff]
    constructor
    · intro h
      exact Or.inr ⟨rest, Or.inr rfl, h⟩
    · rintro (h | ⟨rest2, hsign, h2⟩)
      · exact absurd h (signhead_not_body '-' rest (by decide) (by decide) (by decide) (by decide))
      · rcases hsign with heq | heq
        · injection heq with h3 _
          exact absurd h3 (by decide)
        · injection heq with _ h3
          rw [h3]
          exact h2
  · rename_i hne1 hne2
    rw [pyFloatBody_isSome_iff]
    constructor
    · intro h
      exact Or.inl h
    · rintro (h | ⟨rest2, heq | heq, h2⟩)
      · exact h
      · exact absurd heq (fun hh => hne1 rest2 hh)
      · exact absurd heq (fun hh => hne2 rest2 hh)

/-- C1: for every schema and argument list on which `parse` succeeds with a
result, the returned map contains a key for every declared Flag's
destination (`dest` if set, else `name`); and on empty input (with pairwise
distinct destinations, so that no later Flag overwrites an earlier one's
default) each destination holds exactly the documented default: store-true
flags default to `false`, store-false to `true`, count to `0`, and all
others to the Flag's configured default. -/
theorem C1_default_population :
    (∀ (p : ArgParser) (args : List String) (r : ParsedArgs),
      parse p args = .ok (.result r) →
      ∀ a ∈ p.arguments, (dictGet r.args (destOf a)).isSome = true)
    ∧ (∀ (p : ArgParser) (r : ParsedArgs),
      p.arguments.Pairwise (fun x y => destOf x ≠ destOf y) →
      parse p [] = .ok (.result r) →
      ∀ a ∈ p.arguments,
        dictGet r.args (destOf a)
          = some (if a.action = "store_true" then .bool false
              else if a.action = "store_false" then .bool true
              else if a.action = "count" then .int 0
              else a.default)) := by
  constructor
  · intro p args r h a ha
    simp only [parse] at h
    split at h
    · cases h
    · rename_i r1 col1 hscan
      split at h
      · injection h with h2
        cases h2
      · split at h
        · cases h
        · injection h with h2
          injection h2 with h3
          subst h3
          obtain ⟨-, hmono⟩ := scanLoop_inv p args _ _ _ _ _ _ _ hscan
          exact flushCollected_isSome col1 _ _
            (hmono (destOf a) (applyDefaults_isSome p a ha))
  · intro p r hpw h a ha
    have hp : parse p []
        = (if pyTruthy ((dictGet (applyDefaults p) "help").getD PyVal.none) = true then
            Except.ok ParseOutcome.helpExit
          else
            match validateArgs p.arguments (applyDefaults p) with
            | .error e => .error e
            | .ok _ => Except.ok (.result (⟨applyDefaults p, [], []⟩ : ParsedArgs))) := rfl
    rw [hp] at h
    split at h
    · injection h with h2
      cases h2
    · split at h
      · cases h
      · injection h with h2
        injection h2 with h3
        subst h3
        exact applyDefaults_pairwise p a hpw ha

theorem C1_witness :
    (List.Pairwise (fun x y => destOf x ≠ destOf y)
        (add_argument (mkArgParser "prog" "" "") { name := "n", action := "count" }).arguments
      ∧ parse (add_argument (mkArgParser "prog" "" "") { name := "n", action := "count" }) []
          = .ok (.result (⟨[("help", .bool false), ("n", .int 0)], [], []⟩ : ParsedArgs)))
    ∧ (dictGet [("help", PyVal.bool false), ("n", PyVal.int 0)]
        (destOf { name := "n", action := "count" })).isSome = true
    ∧ dictGet [("help", PyVal.bool false), ("n", PyVal.int 0)]
        (destOf { name := "n", action := "count" })
      = some (if ({ name := "n", action := "count" } : Arg).action = "store_true" then .bool false
          else if ({ name := "n", action := "count" } : Arg).action = "store_false" then .bool true
          else if ({ name := "n", action := "count" } : Arg).action = "count" then .int 0
          else ({ name := "n", action := "count" } : Arg).default) := by
  have hpw : List.Pairwise (fun x y => destOf x ≠ destOf y)
      (add_argument (mkArgParser "prog" "" "") { name := "n", action := "count" }).arguments := by
    simp only [add_argument, mkArgParser, List.singleton_append, List.pairwise_cons,
      List.mem_singleton, List.not_mem_nil, false_implies, implies_true, and_true,
      List.Pairwise.nil]
    intro b hb
    subst hb
    decide
  have hparse : parse (add_argument (mkArgParser "prog" "" "") { name := "n", action := "count" }) []
      = .ok (.result (⟨[("help", .bool false), ("n", .int 0)], [], []⟩ : ParsedArgs)) := rfl
  refine ⟨⟨hpw, hparse⟩, ?_, ?_⟩
  · exact (C1_default_population).1 _ [] _ hparse _ (by simp [add_argument, mkArgParser])
  · exact (C1_default_population).2 _ _ hpw hparse _ (by simp [add_argument, mkArgParser])

/-- C2 (counterexample): `add_argument` and `add_positional` perform no
collision check — adding a Flag or Positional whose name collides with an
existing entry of the same kind simply appends a duplicate and raises
nothing (the methods have no failure path at all, and no SchemaError exists
in the code). -/
theorem C2_counterexample :
    (add_argument (add_argument (mkArgParser "prog" "" "") { name := "x" })
        { name := "x" }).arguments
      = [helpArg, { name := "x" }, { name := "x" }]
    ∧ (add_positional (add_positional (mkArgParser "prog" "" "") { name := "q" })
        { name := "q" }).positionals
      = [{ name := "q" }, { name := "q" }] :=
  ⟨rfl, rfl⟩

/-- C2 (amended): `add_argument` and `add_positional` perform no collision
detection and never fail: each unconditionally appends its entry (duplicate
names and shorts included) and has no other effect on the parser state. -/
theorem C2_append_unconditional (p : ArgParser) (a : Arg) (q : Positional) :
    (add_argument p a).arguments = p.arguments ++ [a]
    ∧ (add_argument p a).positionals = p.positionals
    ∧ (add_argument p a).prog = p.prog
    ∧ (add_argument p a).description = p.description
    ∧ (add_argument p a).epilog = p.epilog
    ∧ (add_positional p q).positionals = p.positionals ++ [q]
    ∧ (add_positional p q).arguments = p.arguments
    ∧ (add_positional p q).prog = p.prog
    ∧ (add_positional p q).description = p.description
    ∧ (add_positional p q).epilog = p.epilog :=
  ⟨rfl, rfl, rfl, rfl, rfl, rfl, rfl, rfl, rfl, rfl⟩

/-- C4: when the scan reaches a literal `--` token, every token after it is
stored verbatim and in order into `remaining` and the scan returns
immediately, so no flag or positional resolution is attempted on any of
them; concretely, `parse(schema, ["--", "-x", "--y"])` yields
`remaining = ["-x", "--y"]`. -/
theorem C4_separator :
    (∀ (p : ArgParser) (args : List String) (fuel i posIdx : ℕ) (r : ParsedArgs)
        (col : List (String × List PyVal)),
      args[i]? = some "--" →
      scanLoop p args (fuel + 1) i posIdx r col
        = .ok ({ r with remaining := args.drop (i + 1) }, col))
    ∧ parse (mkArgParser "prog" "" "") ["--", "-x", "--y"]
        = .ok (.result (⟨[("help", .bool false)], [], ["-x", "--y"]⟩ : ParsedArgs)) := by
  constructor
  · intro p args fuel i posIdx r col hi
    conv_lhs => rw [scanLoop]
    rw [hi]
    rfl
  · rfl

theorem storeValue_novalue_col (r : ParsedArgs) (a : Arg) (v : PyVal)
    (col : List (String × List PyVal)) (r2 : ParsedArgs)
    (col2 : List (String × List PyVal))
    (hact : a.action ∈ ["store_true", "store_false", "count"])
    (h : storeValue r a v col = .ok (r2, col2)) : col2 = col := by
  simp only [List.mem_cons, List.not_mem_nil, or_false] at hact
  unfold storeValue at h
  rcases hact with h1 | h1 | h1
  · rw [if_pos h1] at h
    simp only [Except.ok.injEq, Prod.mk.injEq] at h
    exact h.2.symm
  · rw [if_neg (by rw [h1]; decide), if_pos h1] at h
    simp only [Except.ok.injEq, Prod.mk.injEq] at h
    exact h.2.symm
  · rw [if_neg (by rw [h1]; decide), if_neg (by rw [h1]; decide), if_pos h1] at h
    split at h
    · simp only [Except.ok.injEq, Prod.mk.injEq] at h
      exact h.2.symm
    · cases h

/-- C5: in a short cluster, every character whose Flag has a no-value action
(store-true, store-false, count) is stored immediately — no token is
consumed and nothing is accumulated, so several such flags can be
clustered; a value-taking Flag's character in any non-last position raises
MissingValueError; and on a schema with store-true flags `a`, `b` and value
flag `c`, `parse(schema, ["-abc", "val"])` sets `a=true`, `b=true`,
`c="val"`. -/
theorem C5_short_cluster :
    (∀ (p : ArgParser) (args : List String) (c : Char) (cs : List Char) (i : ℕ)
        (r : ParsedArgs) (col : List (String × List PyVal)) (a : Arg),
      findArgShort p c = some a →
      a.action ∉ ["store_true", "store_false", "count"] →
      cs ≠ [] →
      processCluster p args (c :: cs) i r col = .error (.missingValue c.toString))
    ∧ (∀ (p : ArgParser) (args : List String) (cs : List Char) (i : ℕ)
        (r : ParsedArgs) (col : List (String × List PyVal)),
      (∀ c ∈ cs, ∃ a, findArgShort p c = some a
        ∧ a.action ∈ ["store_true", "store_false", "count"]) →
      ∀ (i2 : ℕ) (r2 : ParsedArgs) (col2 : List (String × List PyVal)),
        processCluster p args cs i r col = .ok (i2, r2, col2) →
        i2 = i ∧ col2 = col)
    ∧ parse (add_argument (add_argument (add_argument (mkArgParser "prog" "" "")
          { name := "a", short := "a", action := "store_true" })
          { name := "b", short := "b", action := "store_true" })
          { name := "c", short := "c" }) ["-abc", "val"]
        = .ok (.result (⟨[("help", .bool false), ("a", .bool true), ("b", .bool true),
            ("c", .str "val")], [], []⟩ : ParsedArgs)) := by
  refine ⟨?_, ?_, rfl⟩
  · intro p args c cs i r col a hfa hact hcs
    unfold processCluster
    split
    · rename_i heq
      rw [hfa] at heq
      cases heq
    · rename_i a2 heq
      rw [hfa] at heq
      injection heq with heq2
      subst heq2
      rw [if_neg hact, if_neg (fun hh : cs.isEmpty = true => hcs (List.isEmpty_iff.mp hh))]
  · intro p args cs
    induction cs with
    | nil =>
      intro i r col hall i2 r2 col2 h
      unfold processCluster at h
      simp only [Except.ok.injEq, Prod.mk.injEq] at h
      exact ⟨h.1.symm, h.2.2.symm⟩
    | cons c cs ih =>
      intro i r col hall i2 r2 col2 h
      obtain ⟨a, hfa, hact⟩ := hall c (List.mem_cons_self _ _)
      unfold processCluster at h
      split at h
      · rename_i heq
        rw [hfa] at heq
        cases heq
      · rename_i a2 heq
        rw [hfa] at heq
        injection heq with heq2
        subst heq2
        rw [if_pos hact] at h
        split at h
        · cases h
        · rename_i r3 col3 hsv
          obtain ⟨hi2, hcol2⟩ := ih i r3 col3
            (fun c2 hc2 => hall c2 (List.mem_cons_of_mem _ hc2)) i2 r2 col2 h
          exact ⟨hi2, hcol2.trans (storeValue_novalue_col _ _ _ _ _ _ hact hsv)⟩

theorem C5_witness :
    processCluster (add_argument (add_argument (add_argument (mkArgParser "prog" "" "")
        { name := "a", short := "a", action := "store_true" })
        { name := "b", short := "b", action := "store_true" })
        { name := "c", short := "c" }) [] ['c', 'a'] 0 (⟨[], [], []⟩ : ParsedArgs) []
      = .error (.missingValue "c")
    ∧ (processCluster (add_argument (add_argument (add_argument (mkArgParser "prog" "" "")
        { name := "a", short := "a", action := "store_true" })
        { name := "b", short := "b", action := "store_true" })
        { name := "c", short := "c" }) [] ['a', 'b'] 0 (⟨[], [], []⟩ : ParsedArgs) []
        = .ok (0, (⟨[("a", PyVal.bool true), ("b", PyVal.bool true)], [], []⟩ : ParsedArgs), [])
      ∧ 0 = 0 ∧ ([] : List (String × List PyVal)) = []) := by
  have hrun : processCluster (add_argument (add_argument (add_argument (mkArgParser "prog" "" "")
      { name := "a", short := "a", action := "store_true" })
      { name := "b", short := "b", action := "store_true" })
      { name := "c", short := "c" }) [] ['a', 'b'] 0 (⟨[], [], []⟩ : ParsedArgs) []
      = .ok (0, (⟨[("a", PyVal.bool true), ("b", PyVal.bool true)], [], []⟩ : ParsedArgs), []) := rfl
  refine ⟨?_, hrun, ?_⟩
  · exact C5_short_cluster.1 _ [] 'c' ['a'] 0 _ [] { name := "c", short := "c" }
      rfl (by decide) (by decide)
  · refine C5_short_cluster.2.1 _ [] ['a', 'b'] 0 _ [] ?_ 0 _ [] hrun
    intro c hc
    simp only [List.mem_cons, List.not_mem_nil, or_false] at hc
    rcases hc with rfl | rfl
    · exact ⟨{ name := "a", short := "a", action := "store_true" }, rfl, by decide⟩
    · exact ⟨{ name := "b", short := "b", action := "store_true" }, rfl, by decide⟩

theorem processArg_none_red (a : Arg) (args : List String) (i : ℕ)
    (hact : a.action ∉ ["store_true", "store_false", "count"]) :
    processArg a args i Option.none
      = if a.nargs = "?" ∧ (args.length ≤ i + 1 ∨ strStartsWith (args[i+1]?.getD "") "-" = true)
        then .ok (i, a.default)
        else
          match args[i+1]? with
          | some s =>
            match pyConvert s a.type with
            | .ok w => .ok (i + 1, w)
            | .error e => .error e
          | Option.none => .error (.missingValue a.name) := by
  unfold processArg
  rw [if_neg hact]

/-- C6: resolving a value-taking Flag with no inline value: when `nargs` is
`"?"` and either no next token exists or the next token starts with `-`,
the Flag's configured default is used and no token is consumed; otherwise
the next token is consumed and converted as the raw value, and
MissingValueError is raised when no next token exists. -/
theorem C6_value_resolution (a : Arg) (args : List String) (i : ℕ)
    (hact : a.action ∉ ["store_true", "store_false", "count"]) :
    ((a.nargs = "?" ∧ (args.length ≤ i + 1 ∨ strStartsWith (args[i+1]?.getD "") "-" = true)) →
      processArg a args i Option.none = .ok (i, a.default))
    ∧ (¬(a.nargs = "?" ∧ (args.length ≤ i + 1 ∨ strStartsWith (args[i+1]?.getD "") "-" = true)) →
      args[i+1]? = Option.none →
      processArg a args i Option.none = .error (.missingValue a.name))
    ∧ (∀ s, ¬(a.nargs = "?" ∧ (args.length ≤ i + 1 ∨ strStartsWith (args[i+1]?.getD "") "-" = true)) →
      args[i+1]? = some s →
      processArg a args i Option.none
        = match pyConvert s a.type with
          | .ok w => .ok (i + 1, w)
          | .error e => .error e) := by
  refine ⟨?_, ?_, ?_⟩
  · intro hc
    rw [processArg_none_red a args i hact, if_pos hc]
  · intro hc hn
    rw [processArg_none_red a args i hact, if_neg hc, hn]
  · intro s hc hs
    rw [processArg_none_red a args i hact, if_neg hc, hs]

theorem C6_witness :
    processArg { name := "o", nargs := "?", default := PyVal.str "d" } ["-q"] 0 Option.none
      = .ok (0, PyVal.str "d")
    ∧ processArg { name := "o" } ["--o"] 0 Option.none = .error (.missingValue "o")
    ∧ processArg { name := "o" } ["--o", "val"] 0 Option.none
        = match pyConvert "val" PyType.str with
          | .ok w => .ok (0 + 1, w)
          | .error e => .error e := by
  refine ⟨?_, ?_, ?_⟩
  · exact (C6_value_resolution { name := "o", nargs := "?", default := PyVal.str "d" }
      ["-q"] 0 (by decide)).1 (by decide)
  · exact (C6_value_resolution { name := "o" } ["--o"] 0 (by decide)).2.1 (by decide) rfl
  · exact (C6_value_resolution { name := "o" } ["--o", "val"] 0 (by decide)).2.2 "val"
      (by decide) rfl

theorem validateArgs_ok_iff (l : List Arg) (d : List (String × PyVal)) :
    (validateArgs l d = .ok ()) ↔ ∀ a ∈ l, a.required = true →
      pyIsNoneOpt (dictGet d (destOf a)) = false := by
  induction l with
  | nil => simp [validateArgs]
  | cons hd tl ih =>
    unfold validateArgs
    split
    · rename_i hc
      constructor
      · intro h
        cases h
      · intro h
        exfalso
        have h2 := h hd (List.mem_cons_self _ _) hc.1
        rw [hc.2] at h2
        cases h2
    · rename_i hc
      rw [ih]
      constructor
      · intro h a ha hreq
        rcases List.mem_cons.mp ha with rfl | ha2
        · cases hno : pyIsNoneOpt (dictGet d (destOf a))
          · rfl
          · exact absurd ⟨hreq, hno⟩ hc
        · exact h a ha2 hreq
      · intro h a ha hreq
        exact h a (List.mem_cons_of_mem _ ha) hreq

theorem validateArgs_err_iff (l : List Arg) (d : List (String × PyVal)) :
    (∃ n, validateArgs l d = .error (.requiredArgument n))
      ↔ ∃ a ∈ l, a.required = true ∧ pyIsNoneOpt (dictGet d (destOf a)) = true := by
  induction l with
  | nil =>
    simp only [validateArgs, List.not_mem_nil, false_and, exists_false, iff_false]
    rintro ⟨n, hn⟩
    cases hn
  | cons hd tl ih =>
    unfold validateArgs
    split
    · rename_i hc
      constructor
      · intro _
        exact ⟨hd, List.mem_cons_self _ _, hc⟩
      · intro _
        exact ⟨hd.name, rfl⟩
    · rename_i hc
      rw [ih]
      constructor
      · rintro ⟨a, ha, hreq, hno⟩
        exact ⟨a, List.mem_cons_of_mem _ ha, hreq, hno⟩
      · rintro ⟨a, ha, hreq, hno⟩
        rcases List.mem_cons.mp ha with rfl | ha2
        · exact absurd ⟨hreq, hno⟩ hc
        · exact ⟨a, ha2, hreq, hno⟩

/-- C7 (counterexample): the claim says `parse(schema, [])` raises
RequiredArgumentError whenever the schema has a required flag with null
default, but a required store-true flag with null default parses
successfully: `_apply_defaults` populates its destination with `False`,
which is not `None`, so `_validate` passes. -/
theorem C7_counterexample :
    ({ name := "x", required := true, action := "store_true" } : Arg).required = true
    ∧ ({ name := "x", required := true, action := "store_true" } : Arg).default = PyVal.none
    ∧ parse (add_argument (mkArgParser "prog" "" "")
        { name := "x", required := true, action := "store_true" }) []
      = .ok (.result (⟨[("help", .bool false), ("x", .bool false)], [], []⟩ : ParsedArgs)) :=
  ⟨rfl, rfl, rfl⟩

/-- C7 (amended): after the scan and default population, validation fails
with RequiredArgumentError iff some Flag marked required has a destination
value that is null/absent (Positionals are never subject to this check —
validation reads only the Flag list); `parse(schema, [])` succeeds and
returns all defaults when no flag is required and the defaulted help value
is not truthy; and it raises RequiredArgumentError when some required
flag's destination value is still null after default population — which for
store-true/store-false/count flags never happens, since their defaults are
non-null. -/
theorem C7_required_validation :
    (∀ (l : List Arg) (d : List (String × PyVal)),
      (validateArgs l d = .ok ()) ↔ ∀ a ∈ l, a.required = true →
        pyIsNoneOpt (dictGet d (destOf a)) = false)
    ∧ (∀ (l : List Arg) (d : List (String × PyVal)),
      (∃ n, validateArgs l d = .error (.requiredArgument n))
        ↔ ∃ a ∈ l, a.required = true ∧ pyIsNoneOpt (dictGet d (destOf a)) = true)
    ∧ (∀ (p : ArgParser) (q : List Positional) (d : List (String × PyVal)),
      validateArgs ({ p with positionals := q }).arguments d = validateArgs p.arguments d)
    ∧ (∀ p : ArgParser,
      (∀ a ∈ p.arguments, a.required = false) →
      pyTruthy ((dictGet (applyDefaults p) "help").getD PyVal.none) = false →
      parse p [] = .ok (.result (⟨applyDefaults p, [], []⟩ : ParsedArgs)))
    ∧ (∀ p : ArgParser,
      pyTruthy ((dictGet (applyDefaults p) "help").getD PyVal.none) = false →
      (∃ a ∈ p.arguments, a.required = true
        ∧ pyIsNoneOpt (dictGet (applyDefaults p) (destOf a)) = true) →
      ∃ n, parse p [] = .error (.requiredArgument n)) := by
  refine ⟨validateArgs_ok_iff, validateArgs_err_iff, fun p q d => rfl, ?_, ?_⟩
  · intro p hreq hhelp
    have hval : validateArgs p.arguments (applyDefaults p) = .ok () := by
      rw [validateArgs_ok_iff]
      intro a ha hreqa
      rw [hreq a ha] at hreqa
      cases hreqa
    have hp : parse p []
        = (if pyTruthy ((dictGet (applyDefaults p) "help").getD PyVal.none) = true then
            Except.ok ParseOutcome.helpExit
          else
            match validateArgs p.arguments (applyDefaults p) with
            | .error e => .error e
            | .ok _ => Except.ok (.result (⟨applyDefaults p, [], []⟩ : ParsedArgs))) := rfl
    rw [hp, if_neg (by rw [hhelp]; exact Bool.false_ne_true), hval]
  · intro p hhelp hex
    obtain ⟨n, hval⟩ := (validateArgs_err_iff p.arguments (applyDefaults p)).mpr hex
    refine ⟨n, ?_⟩
    have hp : parse p []
        = (if pyTruthy ((dictGet (applyDefaults p) "help").getD PyVal.none) = true then
            Except.ok ParseOutcome.helpExit
          else
            match validateArgs p.arguments (applyDefaults p) with
            | .error e => .error e
            | .ok _ => Except.ok (.result (⟨applyDefaults p, [], []⟩ : ParsedArgs))) := rfl
    rw [hp, if_neg (by rw [hhelp]; exact Bool.false_ne_true), hval]

theorem C7_witness :
    parse (mkArgParser "prog" "" "") []
      = .ok (.result (⟨applyDefaults (mkArgParser "prog" "" ""), [], []⟩ : ParsedArgs))
    ∧ ∃ n, parse (add_argument (mkArgParser "prog" "" "") { name := "x", required := true }) []
        = .error (.requiredArgument n) := by
  constructor
  · refine C7_required_validation.2.2.2.1 (mkArgParser "prog" "" "") ?_ rfl
    intro a ha
    simp only [mkArgParser, List.mem_singleton] at ha
    subst ha
    rfl
  · refine C7_required_validation.2.2.2.2
      (add_argument (mkArgParser "prog" "" "") { name := "x", required := true }) rfl ?_
    refine ⟨{ name := "x", required := true }, ?_, rfl, rfl⟩
    simp [add_argument, mkArgParser]

/-- C8: boolean conversion returns `true` exactly when the lowercased token
equals one of "true", "1", "yes", "on" (case-insensitive match), returns
`false` for every other string, and never raises. -/
theorem C8_bool_conversion (s : String) :
    ((pyConvert s PyType.bool = .ok (.bool true))
        ↔ (pyLower s = "true" ∨ pyLower s = "1" ∨ pyLower s = "yes" ∨ pyLower s = "on"))
    ∧ ((pyConvert s PyType.bool = .ok (.bool false))
        ↔ ¬(pyLower s = "true" ∨ pyLower s = "1" ∨ pyLower s = "yes" ∨ pyLower s = "on"))
    ∧ ∃ b, pyConvert s PyType.bool = .ok (.bool b) := by
  have hred : pyConvert s PyType.bool
      = .ok (.bool (["true", "1", "yes", "on"].contains (pyLower s))) := rfl
  have hmem : (["true", "1", "yes", "on"].contains (pyLower s) = true)
      ↔ (pyLower s = "true" ∨ pyLower s = "1" ∨ pyLower s = "yes" ∨ pyLower s = "on") := by
    show List.elem (pyLower s) ["true", "1", "yes", "on"] = true ↔ _
    rw [List.elem_iff]
    simp [List.mem_cons]
  refine ⟨?_, ?_, ⟨_, hred⟩⟩
  · rw [hred]
    constructor
    · intro h
      injection h with h2
      injection h2 with h3
      exact hmem.mp h3
    · intro h
      rw [hmem.mpr h]
  · rw [hred]
    constructor
    · intro h hcon
      rw [hmem.mpr hcon] at h
      injection h with h2
      injection h2 with h3
      cases h3
    · intro h
      have hfalse : (["true", "1", "yes", "on"].contains (pyLower s)) = false := by
        cases hcc : (["true", "1", "yes", "on"].contains (pyLower s))
        · rfl
        · exact absurd (hmem.mp hcc) h
      rw [hfalse]

/-- C9: `parse` never writes to the `positionals` field of the result — on
every successful parse it is the empty list; parsed positional values live
in the `args` map under the Positional's name, single-valued ones directly
and multi-valued ones flushed as an ordered list after the scan, as the
concrete run shows. -/
theorem C9_positionals_empty :
    (∀ (p : ArgParser) (args : List String) (r : ParsedArgs),
      parse p args = .ok (.result r) → r.positionals = [])
    ∧ parse (add_positional (add_positional (mkArgParser "prog" "" "")
          { name := "file" }) { name := "xs", nargs := "*" }) ["n", "v1", "v2"]
        = .ok (.result (⟨[("help", .bool false), ("file", .str "n"),
            ("xs", .list [.str "v1", .str "v2"])], [], []⟩ : ParsedArgs)) := by
  constructor
  · intro p args r h
    simp only [parse] at h
    split at h
    · cases h
    · rename_i r1 col1 hscan
      split at h
      · injection h with h2
        cases h2
      · split at h
        · cases h
        · injection h with h2
          injection h2 with h3
          subst h3
          obtain ⟨hpos, -⟩ := scanLoop_inv p args _ _ _ _ _ _ _ hscan
          exact hpos
  · rfl

theorem C9_witness :
    parse (mkArgParser "prog" "" "") ["only", "extra"]
      = .ok (.result (⟨[("help", .bool false)], [], ["only", "extra"]⟩ : ParsedArgs))
    ∧ (⟨[("help", PyVal.bool false)], [], ["only", "extra"]⟩ : ParsedArgs).positionals
      = [] := by
  have hrun : parse (mkArgParser "prog" "" "") ["only", "extra"]
      = .ok (.result (⟨[("help", .bool false)], [], ["only", "extra"]⟩ : ParsedArgs)) := rfl
  exact ⟨hrun, C9_positionals_empty.1 _ _ _ hrun⟩

theorem processArg_novalue (a : Arg) (args : List String) (i : ℕ) (v : Option String)
    (hact : a.action ∈ ["store_true", "store_false", "count"]) :
    processArg a args i v = .ok (i, PyVal.none) := by
  unfold processArg
  rw [if_pos hact]

theorem scanLoop_long_step (p : ArgParser) (args : List String) (fuel i posIdx : ℕ)
    (r : ParsedArgs) (col : List (String × List PyVal)) (t key : String)
    (mv : Option String)
    (hti : args[i]? = some t) (hne : t ≠ "--") (hpre : strStartsWith t "--" = true)
    (hkv : splitEq (String.mk (t.toList.drop 2)) = (key, mv)) :
    scanLoop p args (fuel + 1) i posIdx r col
      = match findArg p key with
        | Option.none => .error (.unknownArgument key)
        | some a =>
          match processArg a args i mv with
          | .error e => .error e
          | .ok (i2, v) =>
            match storeValue r a v col with
            | .error e => .error e
            | .ok (r2, col2) => scanLoop p args fuel (i2 + 1) posIdx r2 col2 := by
  conv_lhs => rw [scanLoop]
  rw [hti]
  split
  · rename_i heq
    cases heq
  · rename_i t3 heq
    injection heq with heq2
    subst heq2
    rw [if_neg hne, if_pos hpre, hkv]

theorem drop_len_succ (pre post : List String) (x : String) :
    (pre ++ x :: post).drop (pre.length + 1) = post := by
  induction pre with
  | nil => rfl
  | cons hd tl ih => simp

/-- C10: a long token `--name=value` whose resolved Flag has a no-value
action (store-true, store-false, count) is processed exactly as if the
token had been a bare `--name`: the inline value is discarded without error
and the scan continues identically; concretely `--flag=whatever` sets a
store-true flag to `true` and `--c=5` increments a count flag by one. -/
theorem C10_inline_value_ignored :
    (∀ (p : ArgParser) (a : Arg) (key v t t2 : String) (pre post : List String)
        (fuel posIdx : ℕ) (r : ParsedArgs) (col : List (String × List PyVal)),
      strStartsWith t "--" = true → t ≠ "--" →
      strStartsWith t2 "--" = true → t2 ≠ "--" →
      splitEq (String.mk (t.toList.drop 2)) = (key, some v) →
      splitEq (String.mk (t2.toList.drop 2)) = (key, Option.none) →
      findArg p key = some a →
      a.action ∈ ["store_true", "store_false", "count"] →
      scanLoop p (pre ++ t :: post) (fuel + 1) pre.length posIdx r col
        = scanLoop p (pre ++ t2 :: post) (fuel + 1) pre.length posIdx r col)
    ∧ parse (add_argument (mkArgParser "prog" "" "") { name := "flag", action := "store_true" })
        ["--flag=whatever"]
      = .ok (.result (⟨[("help", .bool false), ("flag", .bool true)], [], []⟩ : ParsedArgs))
    ∧ parse (add_argument (mkArgParser "prog" "" "") { name := "c", action := "count" })
        ["--c=5"]
      = .ok (.result (⟨[("help", .bool false), ("c", .int 1)], [], []⟩ : ParsedArgs)) := by
  refine ⟨?_, rfl, rfl⟩
  intro p a key v t t2 pre post fuel posIdx r col hs1 hne1 hs2 hne2 hkv1 hkv2 hfa hact
  have hget1 : (pre ++ t :: post)[pre.length]? = some t := by
    rw [List.getElem?_append_right (le_refl pre.length)]
    simp
  have hget2 : (pre ++ t2 :: post)[pre.length]? = some t2 := by
    rw [List.getElem?_append_right (le_refl pre.length)]
    simp
  rw [scanLoop_long_step p _ fuel pre.length posIdx r col t key (some v) hget1 hne1 hs1 hkv1,
    scanLoop_long_step p _ fuel pre.length posIdx r col t2 key Option.none hget2 hne2 hs2 hkv2,
    hfa]
  simp only [processArg_novalue a (pre ++ t :: post) pre.length (some v) hact,
    processArg_novalue a (pre ++ t2 :: post) pre.length Option.none hact]
  split
  · rfl
  · apply scanLoop_congr
    · simp
    · rw [drop_len_succ, drop_len_succ]

theorem C10_witness :
    scanLoop (add_argument (mkArgParser "prog" "" "") { name := "flag", action := "store_true" })
        ["--flag=whatever"] 1 0 0 (⟨[], [], []⟩ : ParsedArgs) []
      = scanLoop (add_argument (mkArgParser "prog" "" "") { name := "flag", action := "store_true" })
        ["--flag"] 1 0 0 (⟨[], [], []⟩ : ParsedArgs) [] := by
  exact C10_inline_value_ignored.1
    (add_argument (mkArgParser "prog" "" "") { name := "flag", action := "store_true" })
    { name := "flag", action := "store_true" } "flag" "whatever" "--flag=whatever" "--flag"
    [] [] 0 0 (⟨[], [], []⟩ : ParsedArgs) [] rfl (by decide) rfl (by decide) rfl rfl rfl
    (by decide)

theorem pyConvert_int_red (s : String) :
    pyConvert s PyType.int
      = match pyInt s with
        | some n => Except.ok (PyVal.int n)
        | Option.none => Except.error (ArgErr.conversionError s) := rfl

theorem pyConvert_float_red (s : String) :
    pyConvert s PyType.float
      = match pyFloat s with
        | some f => Except.ok (PyVal.float f)
        | Option.none => Except.error (ArgErr.conversionError s) := rfl

/-- C3: `_convert` applies the language's numeric parse for integer and
float tokens and fails with ConversionError (the `ValueError` that
surfaces to the caller of `parse`) exactly when the token is malformed
for that type — that is, exactly when it lies outside the grammar
(`IntWF` / `FloatWF`) of strings accepted by `int(...)` / `float(...)` —
while string tokens are returned unchanged. -/
theorem C3_convert_numeric (s : String) :
    pyConvert s PyType.str = .ok (.str s)
    ∧ (pyConvert s PyType.int = .error (.conversionError s) ↔ ¬IntWF s)
    ∧ ((∃ n, pyConvert s PyType.int = .ok (.int n)) ↔ IntWF s)
    ∧ (pyConvert s PyType.float = .error (.conversionError s) ↔ ¬FloatWF s)
    ∧ ((∃ f, pyConvert s PyType.float = .ok (.float f)) ↔ FloatWF s) := by
  refine ⟨rfl, ?_, ?_, ?_, ?_⟩
  · rw [pyConvert_int_red, ← pyInt_isSome_iff]
    cases h : pyInt s <;> simp [h]
  · rw [pyConvert_int_red, ← pyInt_isSome_iff]
    cases h : pyInt s <;> simp [h]
  · rw [pyConvert_float_red, ← pyFloat_isSome_iff]
    cases h : pyFloat s <;> simp [h]
  · rw [pyConvert_float_red, ← pyFloat_isSome_iff]
    cases h : pyFloat s <;> simp [h]

theorem C4_witness :
    scanLoop (mkArgParser "prog" "" "") ["--", "-x"] 1 0 0 (⟨[], [], []⟩ : ParsedArgs) []
      = .ok ((⟨[], [], ["-x"]⟩ : ParsedArgs), []) := by
  exact C4_separator.1 (mkArgParser "prog" "" "") ["--", "-x"] 0 0 0 (⟨[], [], []⟩ : ParsedArgs)
    [] rfl
